import Mathlib

/-!
Verification development for the `inspect` Go package (`inspect.go`).

The Go source operates on `go/ast` syntax trees.  We embed the data the
code consumes shallowly: every AST node kind the code inspects becomes a
Lean structure carrying the components the code reads, including the
byte positions (`token.Pos` values are byte offsets) and the text that
the external `go/printer` collaborator emits for the node.  Strings are
Lean strings; Go byte-based slicing is modelled by an explicit UTF-8
byte-counting drop.  Mutation of AST nodes (the code sets `fnc.Body =
nil` through a pointer) is modelled by explicit state passing: the
extractor returns the node as it is after the call next to its result.
-/

namespace Inspect

/-- Total number of UTF-8 bytes of a character list. -/
def utf8Len (cs : List Char) : Nat := cs.foldr (fun c n => c.utf8Size + n) 0

/-- UTF-8 byte size of a string, computed on its character list. -/
def strBytes (s : String) : Nat := utf8Len s.data

/-- Drop `n` leading UTF-8 bytes from a character list.  Models Go's
byte-based slice `s[n:]` (they agree whenever `n` falls on a character
boundary, which holds for all positions produced by `go/token`). -/
def goDropBytes : List Char → Nat → List Char
  | cs, 0 => cs
  | [], _ + 1 => []
  | c :: cs, n + 1 => goDropBytes cs (n + 1 - c.utf8Size)

/-- Go's `s[n:]` on a string, `n` in bytes. -/
def goSliceFrom (s : String) (n : Nat) : String := ⟨goDropBytes s.data n⟩

/-- `strings.Replace(s, pat, rep, 1)` on character lists: replace the
first occurrence of `pat` by `rep`. -/
def replaceFirstList : List Char → List Char → List Char → List Char
  | [], pat, rep => if pat.isEmpty then rep else []
  | c :: rest, pat, rep =>
    if pat.isPrefixOf (c :: rest) then rep ++ (c :: rest).drop pat.length
    else c :: replaceFirstList rest pat rep

/-- Model of Go's `strings.Replace(s, pat, rep, 1)`. -/
def replaceFirst (s pat rep : String) : String :=
  ⟨replaceFirstList s.data pat.data rep.data⟩

/-- Model of Go's `strings.Trim(s, cutset)` for a one-character cutset:
remove all leading and trailing occurrences of `c`. -/
def goTrimChar (s : String) (c : Char) : String :=
  ⟨((s.data.dropWhile (· = c)).reverse.dropWhile (· = c)).reverse⟩

/-- Model of Go's `strings.TrimSpace`. -/
def trimSpace (s : String) : String :=
  ⟨((s.data.dropWhile Char.isWhitespace).reverse.dropWhile Char.isWhitespace).reverse⟩

/-- Model of Go's `strings.HasPrefix(s, pre)` (byte prefix; equals the
character-list prefix test on boundary-aligned data). -/
def goHasPrefix (s pre : String) : Bool := pre.data.isPrefixOf s.data

/-! ## The AST fragment the code consumes -/

/-- A `go/ast` comment group attached as documentation.  `raw` is the
text the external printer re-emits for the group (markers and the
newline separating it from the declaration included); `text` is the
result of the collaborator method `CommentGroup.Text()` (markers
stripped, lines joined with a trailing newline). -/
structure CommentGroup where
  raw : String
  text : String
deriving DecidableEq

/-- The result of `Doc.Text()` on a possibly-nil comment group:
a nil group yields the empty string. -/
def docStr : Option CommentGroup → String
  | none => ""
  | some c => c.text

/-- An `*ast.FuncDecl` as consumed by the code.  `docPos` and `typePos`
are the byte offsets `fnc.Doc.Pos()` and `fnc.Type.Pos()`.  `typeText`
is the text the printer emits for the body-less declaration from the
`func` keyword on (receiver included).  `recv` is the receiver base
type name when the declaration has a well-formed single receiver whose
type is a (possibly pointer-wrapped) identifier, `none` otherwise.
`body` is the opaque body; `none` models a nil `Body`. -/
structure FuncDecl where
  name : String
  recv : Option String
  doc : Option CommentGroup
  docPos : Nat
  typePos : Nat
  typeText : String
  body : Option String
deriving DecidableEq

/-- The type expressions distinguished by `ParseFileInterfaces`:
`*ast.Ident`, `*ast.SelectorExpr`, `*ast.FuncType`, anything else.
For a function type, `params` is the printed parameter list and
`results` the printed results (leading space included, empty when the
function type has no results). -/
inductive TypeExpr where
  | ident (name : String)
  | selector (x : String) (sel : String)
  | funcType (params : String) (results : String)
  | otherExpr
deriving DecidableEq

/-- The text the external printer emits for a type expression. -/
def renderTypeExpr : TypeExpr → String
  | .ident n => n
  | .selector x sel => x ++ "." ++ sel
  | .funcType params results => "func(" ++ params ++ ")" ++ results
  | .otherExpr => ""

/-- An `*ast.Field` of an interface member list. -/
structure Field where
  names : List String
  type : TypeExpr
deriving DecidableEq

/-- The underlying type of a type specification: an
`*ast.InterfaceType` (with its member list) or anything else. -/
inductive TypeNode where
  | interfaceType (members : List Field)
  | otherType
deriving DecidableEq

/-- An `ast.Spec`: a `*ast.TypeSpec` or any other specification. -/
inductive Spec where
  | typeSpec (name : String) (type : TypeNode)
  | otherSpec
deriving DecidableEq

/-- A top-level declaration: `*ast.FuncDecl` or `*ast.GenDecl`. -/
inductive Decl where
  | funcDecl (f : FuncDecl)
  | genDecl (specs : List Spec)
deriving DecidableEq

/-- An `*ast.ImportSpec`; `pathValue` is `Path.Value`, source-level
quote characters included. -/
structure ImportSpec where
  pathValue : String
deriving DecidableEq

/-- An `*ast.File`: package name, top-level declarations, and the
`Imports` field collected by the parser. -/
structure File where
  pkgName : String
  decls : List Decl
  imports : List ImportSpec
deriving DecidableEq

/-! ## The data model of inspect.go -/

/-- `inspect.Function`. -/
structure Function where
  Name : String
  Signature : String
  Documentation : String
deriving DecidableEq

/-- `inspect.Interface`. -/
structure Interface where
  Name : String
  Methods : List String
  Interfaces : List String
deriving DecidableEq

/-- `inspect.Package`. -/
structure Package where
  Name : String
  Imports : List String
  Funcs : List Function
  Interfaces : List Interface
deriving DecidableEq

/-- `inspect.FuncOption` is an `int` used as a bit set. -/
abbrev FuncOption := Nat

def FuncUnexported : FuncOption := 1

def FuncExported : FuncOption := 2

def FuncBoth : FuncOption := FuncExported ||| FuncUnexported

/-- Model of the external collaborator `ast.IsExported`: decode the
first character of the name and test whether it is uppercase (an empty
name decodes to the replacement character, which is not uppercase). -/
def astIsExported (name : String) : Bool :=
  match name.data with
  | [] => false
  | c :: _ => c.isUpper

/-- `(*Function).IsExported`, a wrapper around `ast.IsExported`. -/
def Function.IsExported (f : Function) : Bool := astIsExported f.Name

/-! ## ParseFunction -/

/-- The text `printer.Fprint` emits for a body-less `*ast.FuncDecl`:
the doc comment (when the node carries one) followed by the
declaration text from the `func` keyword on. -/
def renderFuncDecl (fnc : FuncDecl) : String :=
  match fnc.doc with
  | some c => c.raw ++ fnc.typeText
  | none => fnc.typeText

/-- `ParseFunction`.  The Go function mutates its argument (it sets
`fnc.Body = nil` before printing), so the embedding returns the node
as left after the call next to the produced `*Function`.  Printing
into a `bytes.Buffer` cannot fail, so the `return nil` branch guarding
the printer error is unreachable and the first component is always
`some`. -/
def ParseFunction (fnc : FuncDecl) : Option Function × FuncDecl :=
  let fnc' := { fnc with body := none }
  let rendered := renderFuncDecl fnc'
  let startPos := if docStr fnc'.doc ≠ "" then fnc'.typePos - fnc'.docPos else 0
  (some { Name := fnc'.name
          Signature := goSliceFrom rendered startPos
          Documentation := trimSpace (docStr fnc'.doc) }, fnc')

/-! ## ParseFileFuncs -/

/-- The body of the `ast.Inspect` callback of `ParseFileFuncs` for one
`*ast.FuncDecl` node: the two `if` statements deciding whether
`ParseFunction` is called (their conditions are mutually exclusive, so
sequential testing equals the first matching branch). -/
def parseFuncDeclStep (funcOption : FuncOption) (fnc : FuncDecl) :
    Option Function × FuncDecl :=
  if funcOption &&& FuncUnexported ≠ 0 ∧ ¬ astIsExported fnc.name then
    ParseFunction fnc
  else if funcOption &&& FuncExported ≠ 0 ∧ astIsExported fnc.name then
    ParseFunction fnc
  else (none, fnc)

/-- The traversal of `ast.Inspect` over the file's declarations
(function declarations only occur at the top level in Go), collecting
produced functions and threading the node mutations. -/
def parseDeclsFuncs (funcOption : FuncOption) : List Decl → List Function × List Decl
  | [] => ([], [])
  | .funcDecl fnc :: ds =>
    let step := parseFuncDeclStep funcOption fnc
    let rest := parseDeclsFuncs funcOption ds
    (match step.1 with
     | some f => f :: rest.1
     | none => rest.1, .funcDecl step.2 :: rest.2)
  | d :: ds =>
    let rest := parseDeclsFuncs funcOption ds
    (rest.1, d :: rest.2)

/-- `ParseFileFuncs`.  If neither option bit is set the option defaults
to `FuncBoth`.  The second component is the file after the traversal
(every visited function declaration has lost its body). -/
def ParseFileFuncs (file : File) (funcOption : FuncOption) : List Function × File :=
  let funcOption :=
    if funcOption &&& FuncUnexported = 0 ∧ funcOption &&& FuncExported = 0 then FuncBoth
    else funcOption
  let res := parseDeclsFuncs funcOption file.decls
  (res.1, { file with decls := res.2 })

/-! ## ParseFileImports -/

/-- `ParseFileImports`: strip quote characters from each import path
value, in order. -/
def ParseFileImports (file : File) : List String :=
  file.imports.map (fun i => goTrimChar i.pathValue '"')

/-! ## ParseFileInterfaces -/

/-- The loop body of `ParseFileInterfaces` for one member of an
interface member list: a plain identifier or a qualified selector is
appended to the embedded-interface list; then, if the member has at
least one name and a function-type member type, the printed function
type with the member's first name spliced after `func ` is appended to
the method list. -/
def parseInterfaceField (iface : Interface) (field : Field) : Interface :=
  let iface :=
    match field.type with
    | .ident n => { iface with Interfaces := iface.Interfaces ++ [n] }
    | _ => iface
  let iface :=
    match field.type with
    | .selector x sel =>
      { iface with Interfaces := iface.Interfaces ++ [renderTypeExpr (.selector x sel)] }
    | _ => iface
  match field.names with
  | [] => iface
  | name0 :: _ =>
    match field.type with
    | .funcType params results =>
      let sig := replaceFirst (renderTypeExpr (.funcType params results))
        "func(" ("func " ++ name0 ++ "(")
      { iface with Methods := iface.Methods ++ [sig] }
    | _ => iface

/-- The loop over one `*ast.GenDecl`'s specifications: each type
specification whose underlying type is an interface type contributes
one `Interface`. -/
def parseSpecInterfaces (acc : List Interface) (s : Spec) : List Interface :=
  match s with
  | .typeSpec name (.interfaceType members) =>
    acc ++ [members.foldl parseInterfaceField { Name := name, Methods := [], Interfaces := [] }]
  | _ => acc

/-- `ParseFileInterfaces`: the `ast.Inspect` traversal visits the
file's general declarations in source order. -/
def ParseFileInterfaces (file : File) : List Interface :=
  file.decls.foldl
    (fun acc d =>
      match d with
      | .genDecl specs => specs.foldl parseSpecInterfaces acc
      | _ => acc) []

/-! ## ast.MergePackageFiles

`ParsePackage` calls the external collaborator `ast.MergePackageFiles`
with mode `FilterFuncDuplicates + FilterImportDuplicates`.  The
collaborator (go/ast/filter.go) first sorts the package's file names,
then concatenates the files' declarations in that order, filtering
duplicate function declarations: the first declaration of a name is
kept at its slot unless it carries no doc comment and a later
duplicate arrives, in which case the earlier slot is cleared and the
later declaration is kept at its own position.  A second pass removes
the cleared slots.  Imports are deduplicated by their quoted path
value, first occurrence wins. -/

/-- `nameOf` from go/ast/filter.go: the filter key of a function
declaration.  `recv = some r` stands for a well-formed single receiver
whose (pointer-dereferenced) type is the identifier `r`. -/
def nameOf (f : FuncDecl) : String :=
  match f.recv with
  | some r => r ++ "." ++ f.name
  | none => f.name

/-- Lexicographic comparison of character lists by code point; the
order `sort.Strings` sorts by (byte-wise comparison of UTF-8 strings
coincides with code-point order). -/
def charLe : List Char → List Char → Bool
  | [], _ => true
  | _ :: _, [] => false
  | a :: as, b :: bs => if a = b then charLe as bs else decide (a.toNat < b.toNat)

/-- String comparison as `sort.Strings` uses it. -/
def strLe (a b : String) : Bool := charLe a.data b.data

/-- Model of `sort.Strings`: the sorted permutation of the list. -/
def sortStrings (l : List String) : List String :=
  List.insertionSort (fun a b => strLe a b = true) l

theorem charLe_total : ∀ x y, charLe x y = true ∨ charLe y x = true := by
  intro x
  induction x with
  | nil =>
    intro y
    exact Or.inl rfl
  | cons a as ih =>
    intro y
    cases y with
    | nil => exact Or.inr rfl
    | cons b bs =>
      by_cases hab : a = b
      · subst hab
        rcases ih bs with h | h
        · exact Or.inl (by simp [charLe, h])
        · exact Or.inr (by simp [charLe, h])
      · have hv : a.toNat ≠ b.toNat := by
          intro hh
          exact hab (Char.ext (UInt32.ext hh))
        rcases Nat.lt_or_ge a.toNat b.toNat with h | h
        · exact Or.inl (by simp [charLe, hab, h])
        · have hlt : b.toNat < a.toNat := Nat.lt_of_le_of_ne h (fun hh => hv hh.symm)
          have hba : ¬ b = a := fun hh => hab hh.symm
          exact Or.inr (by simp [charLe, hba, hlt])

theorem charLe_trans : ∀ x y z, charLe x y = true → charLe y z = true → charLe x z = true := by
  intro x
  induction x with
  | nil =>
    intro y z _ _
    rfl
  | cons a as ih =>
    intro y z hxy hyz
    cases y with
    | nil => cases hxy
    | cons b bs =>
      cases z with
      | nil => cases hyz
      | cons c cs =>
        by_cases hab : a = b <;> by_cases hbc : b = c
        · subst hab
          subst hbc
          simp only [charLe, if_pos rfl] at hxy hyz ⊢
          exact ih bs cs hxy hyz
        · subst hab
          simp only [charLe, if_pos rfl] at hxy
          simp only [charLe, if_neg hbc] at hyz ⊢
          exact hyz
        · subst hbc
          simp only [charLe, if_neg hab] at hxy ⊢
          exact hxy
        · simp only [charLe, if_neg hab] at hxy
          simp only [charLe, if_neg hbc] at hyz
          rw [decide_eq_true_eq] at hxy hyz
          have hac : a.toNat < c.toNat := Nat.lt_trans hxy hyz
          have hne : a ≠ c := by
            intro hh
            subst hh
            exact Nat.lt_irrefl _ hac
          simp [charLe, hne, hac]

theorem charLe_antisymm : ∀ x y, charLe x y = true → charLe y x = true → x = y := by
  intro x
  induction x with
  | nil =>
    intro y _ hyx
    cases y with
    | nil => rfl
    | cons b bs => cases hyx
  | cons a as ih =>
    intro y hxy hyx
    cases y with
    | nil => cases hxy
    | cons b bs =>
      by_cases hab : a = b
      · subst hab
        simp only [charLe, if_pos rfl] at hxy hyx
        rw [ih bs hxy hyx]
      · simp only [charLe, if_neg hab] at hxy
        simp only [charLe, if_neg (fun hh : b = a => hab hh.symm)] at hyx
        rw [decide_eq_true_eq] at hxy hyx
        exact absurd (Nat.lt_trans hxy hyx) (Nat.lt_irrefl _)

instance : IsTotal String (fun a b => strLe a b = true) :=
  ⟨fun a b => charLe_total a.data b.data⟩

instance : IsTrans String (fun a b => strLe a b = true) :=
  ⟨fun a b c => charLe_trans a.data b.data c.data⟩

instance : IsAntisymm String (fun a b => strLe a b = true) :=
  ⟨fun a b h1 h2 => String.ext (charLe_antisymm a.data b.data h1 h2)⟩

/-- Lookup in the `funcs` map of `MergePackageFiles` (name to slot). -/
def lookupIdx (m : List (String × Nat)) (n : String) : Option Nat :=
  (m.find? (fun p => p.1 = n)).map (fun p => p.2)

/-- The state of the declaration-filtering loop of
`MergePackageFiles`: the `decls` slice under construction (`none` is a
cleared slot) and the `funcs` map. -/
structure MergeState where
  arr : List (Option Decl)
  idx : List (String × Nat)
deriving DecidableEq

/-- One iteration of the declaration-filtering loop of
`MergePackageFiles` (every declaration occupies a slot; dropped
declarations leave a `nil` slot, exactly as in the Go loop where
`decls[i] = d` is executed with `d` possibly set to nil). -/
def mergeDeclStep (s : MergeState) (d : Decl) : MergeState :=
  match d with
  | .funcDecl f =>
    let n := nameOf f
    match lookupIdx s.idx n with
    | some j =>
      match s.arr[j]? with
      | some (some (.funcDecl g)) =>
        if g.doc = none then { arr := (s.arr.set j none) ++ [some d], idx := s.idx }
        else { arr := s.arr ++ [none], idx := s.idx }
      | _ => { arr := s.arr ++ [none], idx := s.idx }
    | none => { arr := s.arr ++ [some d], idx := s.idx ++ [(n, s.arr.length)] }
  | _ => { arr := s.arr ++ [some d], idx := s.idx }

/-- The declaration filtering of `MergePackageFiles`: run the loop,
then compact away the cleared slots (the second pass of the Go code,
which preserves the order of the surviving entries). -/
def dedupFuncDecls (ds : List Decl) : List Decl :=
  ((ds.foldl mergeDeclStep { arr := [], idx := [] }).arr).reduceOption

/-- One iteration of the import collection of `MergePackageFiles`
under `FilterImportDuplicates`: skip an import whose quoted path value
was seen already, otherwise keep it and record the path. -/
def importStep (acc : List ImportSpec × List String) (imp : ImportSpec) :
    List ImportSpec × List String :=
  if imp.pathValue ∈ acc.2 then acc
  else (acc.1 ++ [imp], acc.2 ++ [imp.pathValue])

/-- The import collection of `MergePackageFiles` under
`FilterImportDuplicates`: keep the first import for each quoted path
value. -/
def dedupImports (imps : List ImportSpec) : List ImportSpec :=
  (imps.foldl importStep ([], [])).1

/-- An `*ast.Package` as returned by `parser.ParseDir` for one package
name: the `Files` map, modelled as an association list whose order
stands for the map's (arbitrary) iteration order. -/
structure AstPackage where
  name : String
  files : List (String × File)
deriving DecidableEq

/-- `pkg.Files[filename]`. -/
def lookupFile (files : List (String × File)) (fn : String) : Option File :=
  (files.find? (fun p => p.1 = fn)).map (fun p => p.2)

/-- `ast.MergePackageFiles(pkg, FilterFuncDuplicates+FilterImportDuplicates)`
restricted to the fields the code reads from the merged file. -/
def MergePackageFiles (pkg : AstPackage) : File :=
  let filenames := sortStrings (pkg.files.map (fun p => p.1))
  let fileList := filenames.filterMap (lookupFile pkg.files)
  { pkgName := pkg.name
    decls := dedupFuncDecls (fileList.map (fun f => f.decls)).flatten
    imports := dedupImports (fileList.map (fun f => f.imports)).flatten }

/-! ## ParsePackage -/

/-- `ParsePackage`: merge the package's files, then build the
`Package`.  The struct literal's fields are evaluated in source order,
so `ParseFileFuncs` runs first and its node mutations (body stripping)
are visible to the later extractors; the merged file is threaded
explicitly. -/
def ParsePackage (pkg : AstPackage) (funcOption : FuncOption) : Package :=
  let mergedFile := MergePackageFiles pkg
  let res := ParseFileFuncs mergedFile funcOption
  { Name := pkg.name
    Funcs := res.1
    Imports := ParseFileImports res.2
    Interfaces := ParseFileInterfaces res.2 }

/-! ## ParsePackagesFromDir -/

/-- The registry built by `ParsePackagesFromDir`: the Go map
`map[string]*Package`, modelled as an association list; only lookups
are observable. -/
abbrev Registry := List (String × Package)

/-- Go map read `pkgs[name]`. -/
def regLookup (r : Registry) (k : String) : Option Package :=
  (r.find? (fun p => p.1 = k)).map (fun p => p.2)

/-- Go map write `pkgs[name] = v`: replace the binding when present,
otherwise add one. -/
def regSet : Registry → String → Package → Registry
  | [], k, v => [(k, v)]
  | (k0, v0) :: rest, k, v =>
    if k0 = k then (k0, v) :: rest else (k0, v0) :: regSet rest k v

/-- Model of `filepath.Join(dir, "cmd")` for well-formed directory
paths. -/
def filepathJoin (a b : String) : String := a ++ "/" ++ b

/-- The registry update of `ParsePackagesFromDir` for one package of a
parsed directory: when an entry for the package name already exists,
only its `Funcs` receive the new package's functions; otherwise the
new package is inserted. -/
def mergeParsedPkg (funcOption : FuncOption) (pkgs : Registry) (pkg : AstPackage) : Registry :=
  let p := ParsePackage pkg funcOption
  match regLookup pkgs pkg.name with
  | some existing =>
    regSet pkgs pkg.name { existing with Funcs := existing.Funcs ++ p.Funcs }
  | none => regSet pkgs pkg.name p

/-- One invocation of the `filepath.Walk` callback, as data: the
visited path, whether it is a directory, the error the walk passes in
(for unreadable entries), and the result `parser.ParseDir` would
return for the path.  The list order of the parsed packages models the
iteration order of the `map[string]*ast.Package`.  The test-file
filter only affects which files the external parser reads, so its
effect is already reflected in `parsed`. -/
structure WalkEntry where
  path : String
  isDir : Bool
  walkErr : Option String
  parsed : Except String (List AstPackage)

/-- The body of the `filepath.Walk` callback: propagate a walk error,
skip non-directories and paths under the reserved `cmd` subtree,
propagate a parse error, and otherwise merge every parsed package into
the registry. -/
def walkStep (dir : String) (funcOption : FuncOption) (pkgs : Registry) (e : WalkEntry) :
    Registry × Option String :=
  match e.walkErr with
  | some err => (pkgs, some err)
  | none =>
    if ¬ e.isDir ∨ goHasPrefix e.path (filepathJoin dir "cmd") then (pkgs, none)
    else
      match e.parsed with
      | .error err => (pkgs, some err)
      | .ok parsedPkgs => (parsedPkgs.foldl (mergeParsedPkg funcOption) pkgs, none)

/-- `filepath.Walk`: process the visit sequence in order; a callback
error aborts the remaining traversal and is returned. -/
def runWalk (dir : String) (funcOption : FuncOption) :
    Registry → List WalkEntry → Registry × Option String
  | pkgs, [] => (pkgs, none)
  | pkgs, e :: es =>
    match walkStep dir funcOption pkgs e with
    | (pkgs', none) => runWalk dir funcOption pkgs' es
    | (pkgs', some err) => (pkgs', some err)

/-- `ParsePackagesFromDir`: the registry starts empty and is returned
together with the walk's error — the same (possibly partially filled)
map either way, since Go returns `pkgs, filepath.Walk(...)`.  The
`entries` argument is the visit sequence `filepath.Walk` produces for
the directory tree under `dir` (a fixed, lexically ordered sequence). -/
def ParsePackagesFromDir (dir : String) (entries : List WalkEntry) (funcOption : FuncOption) :
    Registry × Option String :=
  runWalk dir funcOption [] entries

/-! ## Helper lemmas on the string models -/

theorem utf8Len_cons (c : Char) (cs : List Char) :
    utf8Len (c :: cs) = c.utf8Size + utf8Len cs := rfl

theorem goDropBytes_zero (cs : List Char) : goDropBytes cs 0 = cs := by
  cases cs <;> rfl

theorem goDropBytes_append (a b : List Char) : goDropBytes (a ++ b) (utf8Len a) = b := by
  induction a with
  | nil =>
    simp only [List.nil_append]
    exact goDropBytes_zero b
  | cons c a ih =>
    have hsz := Char.utf8Size_pos c
    obtain ⟨m, hm⟩ : ∃ m, utf8Len (c :: a) = m + 1 := by
      refine ⟨utf8Len (c :: a) - 1, ?_⟩
      rw [utf8Len_cons]
      omega
    rw [List.cons_append, hm, goDropBytes]
    have h2 : m + 1 - c.utf8Size = utf8Len a := by
      rw [utf8Len_cons] at hm
      omega
    rw [h2, ih]

theorem goSliceFrom_append (a b : String) : goSliceFrom (a ++ b) (strBytes a) = b := by
  unfold goSliceFrom strBytes
  rw [String.data_append, goDropBytes_append]

theorem replaceFirstList_append (pat s rep : List Char) (h : pat ≠ []) :
    replaceFirstList (pat ++ s) pat rep = rep ++ s := by
  match pat, h with
  | p :: ps, _ =>
    rw [List.cons_append, replaceFirstList]
    have hpre : (p :: ps).isPrefixOf (p :: (ps ++ s)) = true := by
      rw [List.isPrefixOf_iff_prefix]
      exact List.prefix_append (p :: ps) s
    simp only [hpre, if_true]
    have hd : (p :: (ps ++ s)).drop (p :: ps).length = s := by
      have h2 := List.drop_left (p :: ps) s
      simp only [List.cons_append] at h2
      exact h2
    rw [hd]

theorem replaceFirst_append (s rep : String) (pat : String) (hp : pat.data ≠ []) :
    replaceFirst (pat ++ s) pat rep = rep ++ s := by
  unfold replaceFirst
  apply String.ext
  simp only [String.data_append]
  rw [replaceFirstList_append pat.data s.data rep.data hp]

/-! ## Concrete inputs used by the claim theorems -/

/-- The function declaration of the C3 scenario: a file starting with
`// doc` (bytes 1 to 7) followed by `func Foo() string` (keyword at
byte offset 8). -/
def fooDecl : FuncDecl :=
  { name := "Foo", recv := none
    doc := some { raw := "// doc\n", text := "doc\n" }
    docPos := 1, typePos := 8
    typeText := "func Foo() string"
    body := some "return x" }

/-- The undocumented unexported function of the C3 scenario. -/
def barDecl : FuncDecl :=
  { name := "bar", recv := none, doc := none, docPos := 0, typePos := 42
    typeText := "func bar() string"
    body := some "return y" }

/-- The file of the C3 scenario. -/
def fooBarFile : File :=
  { pkgName := "p", decls := [.funcDecl fooDecl, .funcDecl barDecl], imports := [] }

/-- The file of the C2 scenario:
`type Reader interface (io.Reader; Read(p []byte) (n int, err error))`. -/
def readerFile : File :=
  { pkgName := "p"
    decls := [.genDecl [.typeSpec "Reader" (.interfaceType
      [ { names := [], type := .selector "io" "Reader" },
        { names := ["Read"], type := .funcType "p []byte" " (n int, err error)" } ])]]
    imports := [] }

/-- A forward declaration (no body) for C4. -/
def fwdDecl : FuncDecl :=
  { name := "Abs", recv := none, doc := none, docPos := 0, typePos := 1
    typeText := "func Abs(x int) int", body := none }

/-- A declaration with a body for C5. -/
def bodiedDecl : FuncDecl :=
  { name := "f", recv := none, doc := none, docPos := 0, typePos := 1
    typeText := "func f()", body := some "return 1" }

/-! ## C2: interface extraction -/

/-- Characterization (following the spec's words in §4.3) of the
embedded-interface entry contributed by one interface member. -/
def embeddedOf (fd : Field) : Option String :=
  match fd.type with
  | .ident n => some n
  | .selector x sel => some (x ++ "." ++ sel)
  | _ => none

/-- Characterization of the method-signature entry contributed by one
interface member, in the `func name(params) results` shape the code
produces. -/
def methodSigOf (fd : Field) : Option String :=
  match fd.names with
  | [] => none
  | n :: _ =>
    match fd.type with
    | .funcType params results => some ("func " ++ n ++ "(" ++ params ++ ")" ++ results)
    | _ => none

theorem replaceFirst_funcType (params results n : String) :
    replaceFirst (renderTypeExpr (.funcType params results)) "func(" ("func " ++ n ++ "(") =
      "func " ++ n ++ "(" ++ params ++ ")" ++ results := by
  have hfc : ("func(" : String).data ≠ [] := by decide
  have h1 : renderTypeExpr (.funcType params results) = "func(" ++ (params ++ ")" ++ results) := by
    apply String.ext
    simp [renderTypeExpr, String.data_append, List.append_assoc]
  have h2 := replaceFirst_append (params ++ ")" ++ results) ("func " ++ n ++ "(") "func(" hfc
  rw [h1, h2]
  apply String.ext
  simp [String.data_append, List.append_assoc]

theorem parseInterfaceField_eq (iface : Interface) (fd : Field) :
    parseInterfaceField iface fd =
      { iface with
        Methods := iface.Methods ++ (methodSigOf fd).toList
        Interfaces := iface.Interfaces ++ (embeddedOf fd).toList } := by
  rcases fd with ⟨names, ty⟩
  cases ty with
  | ident n => cases names <;> simp [parseInterfaceField, methodSigOf, embeddedOf]
  | selector x sel =>
    cases names <;> simp [parseInterfaceField, methodSigOf, embeddedOf, renderTypeExpr]
  | otherExpr => cases names <;> simp [parseInterfaceField, methodSigOf, embeddedOf]
  | funcType params results =>
    cases names with
    | nil => simp [parseInterfaceField, methodSigOf, embeddedOf]
    | cons n rest =>
      simp [parseInterfaceField, methodSigOf, embeddedOf, replaceFirst_funcType]

theorem foldl_parseInterfaceField (members : List Field) (nm : String) (ms is : List String) :
    members.foldl parseInterfaceField { Name := nm, Methods := ms, Interfaces := is } =
      { Name := nm
        Methods := ms ++ members.filterMap methodSigOf
        Interfaces := is ++ members.filterMap embeddedOf } := by
  induction members generalizing ms is with
  | nil => simp
  | cons fd rest ih =>
    rw [List.foldl_cons, parseInterfaceField_eq, ih]
    rcases hm : methodSigOf fd with _ | m <;> rcases he : embeddedOf fd with _ | e <;>
      simp [List.filterMap_cons, hm, he]

/-- C2 (counterexample): for the `Reader` interface of the scenario the
methods list is `["func Read(p []byte) (n int, err error)"]`, so it is
not `["Read(p []byte) (n int, err error)"]` as the claim states. -/
theorem C2_counterexample :
    ParseFileInterfaces readerFile =
      [{ Name := "Reader"
         Methods := ["func Read(p []byte) (n int, err error)"]
         Interfaces := ["io.Reader"] }] ∧
    ¬ (ParseFileInterfaces readerFile).map Interface.Methods =
        [["Read(p []byte) (n int, err error)"]] := by
  constructor
  · rfl
  · decide

/-- C2 (amended): for a file declaring one interface, extraction
produces one `Interface` whose embedded-interface list collects, in
source order, the plain identifiers and qualified selectors among the
members, and whose method list collects, in source order, one entry
`func methodName(params) returns` for every named member with a
function type; for the scenario interface `Reader` this yields
embedded interfaces `["io.Reader"]` and methods
`["func Read(p []byte) (n int, err error)"]`. -/
theorem C2_interface_extraction :
    (∀ (pkg nm : String) (members : List Field) (imps : List ImportSpec),
        ParseFileInterfaces
            { pkgName := pkg
              decls := [.genDecl [.typeSpec nm (.interfaceType members)]]
              imports := imps } =
          [{ Name := nm
             Methods := members.filterMap methodSigOf
             Interfaces := members.filterMap embeddedOf }]) ∧
    ParseFileInterfaces readerFile =
      [{ Name := "Reader"
         Methods := ["func Read(p []byte) (n int, err error)"]
         Interfaces := ["io.Reader"] }] := by
  constructor
  · intro pkg nm members imps
    unfold ParseFileInterfaces
    simp [parseSpecInterfaces, foldl_parseInterfaceField]
  · rfl

/-! ## C3: signature extraction -/

/-- C3 (confirmed): the produced signature is the rendered body-less
declaration with its first `docOffset` characters removed, `docOffset`
being `typePos - docPos` when a (non-empty) doc comment exists and `0`
otherwise; whenever the printed doc comment occupies exactly the bytes
between `docPos` and `typePos`, the signature is exactly the
declaration text from the keyword on.  For the scenario file,
exported-only extraction yields one `Foo` function with documentation
`doc`, and both-kinds extraction additionally yields `bar` with empty
documentation. -/
theorem C3_signature_extraction :
    (∀ fnc : FuncDecl,
        (ParseFunction fnc).1 = some
          { Name := fnc.name
            Signature := goSliceFrom (renderFuncDecl { fnc with body := none })
              (if docStr fnc.doc ≠ "" then fnc.typePos - fnc.docPos else 0)
            Documentation := trimSpace (docStr fnc.doc) }) ∧
    (∀ (fnc : FuncDecl) (c : CommentGroup), fnc.doc = some c → c.text ≠ "" →
        strBytes c.raw = fnc.typePos - fnc.docPos →
        (ParseFunction fnc).1 = some
          { Name := fnc.name, Signature := fnc.typeText, Documentation := trimSpace c.text }) ∧
    (ParseFileFuncs fooBarFile FuncExported).1 =
      [{ Name := "Foo", Signature := "func Foo() string", Documentation := "doc" }] ∧
    (ParseFileFuncs fooBarFile FuncBoth).1 =
      [{ Name := "Foo", Signature := "func Foo() string", Documentation := "doc" },
       { Name := "bar", Signature := "func bar() string", Documentation := "" }] := by
  refine ⟨fun fnc => rfl, ?_, by decide, by decide⟩
  intro fnc c hdoc htext hlen
  unfold ParseFunction
  simp only [hdoc]
  have hds : docStr (some c) = c.text := rfl
  rw [hds]
  simp only [htext, if_pos (by simpa using htext)]
  have hrender : renderFuncDecl { fnc with body := none, doc := some c } =
      c.raw ++ fnc.typeText := by
    rw [renderFuncDecl]
  congr 1
  have : goSliceFrom (c.raw ++ fnc.typeText) (fnc.typePos - fnc.docPos) = fnc.typeText := by
    rw [← hlen, goSliceFrom_append]
  simp only [renderFuncDecl, ← hlen, goSliceFrom_append]

/-- Witness for C3 at the scenario's `Foo` declaration. -/
theorem C3_signature_extraction_witness :
    fooDecl.doc = some { raw := "// doc\n", text := "doc\n" } ∧
    (ParseFunction fooDecl).1 = some
      { Name := "Foo", Signature := "func Foo() string", Documentation := "doc" } :=
  ⟨rfl, C3_signature_extraction.2.1 fooDecl { raw := "// doc\n", text := "doc\n" }
    rfl (by decide) (by decide)⟩

/-! ## C4: declarations with no body -/

/-- C4 (counterexample): `ParseFunction` does not skip a declaration
without a body — it produces a `Function` for the forward declaration
`func Abs(x int) int`. -/
theorem C4_counterexample :
    fwdDecl.body = none ∧
    (ParseFunction fwdDecl).1 = some
      { Name := "Abs", Signature := "func Abs(x int) int", Documentation := "" } ∧
    (ParseFunction fwdDecl).1 ≠ none := by
  refine ⟨rfl, rfl, by decide⟩

/-- C4 (amended): declarations with no body are not skipped: the
extractor always produces a `Function`, and its result for a
declaration is the same whether or not the declaration has a body (the
body is stripped before rendering in every case); file extraction
simply continues. -/
theorem C4_no_body_not_skipped :
    ∀ (fnc : FuncDecl) (b : Option String),
      ((ParseFunction fnc).1).isSome = true ∧
      (ParseFunction { fnc with body := b }).1 = (ParseFunction fnc).1 :=
  fun _ _ => ⟨rfl, rfl⟩

/-! ## C5: side effects of ParseFunction -/

/-- C5 (counterexample): `ParseFunction` mutates its input node — the
declaration's body is cleared through the pointer, so the node after
the call differs from the input. -/
theorem C5_counterexample : (ParseFunction bodiedDecl).2 ≠ bodiedDecl := by
  decide

/-- C5 (amended): the extractor's only mutation of the input node is
setting its `Body` to nil; every other field is unchanged, and running
the extractor on the already-stripped node is stable. -/
theorem C5_body_mutation :
    ∀ fnc : FuncDecl,
      (ParseFunction fnc).2 = { fnc with body := none } ∧
      ParseFunction ((ParseFunction fnc).2) = ParseFunction fnc :=
  fun _ => ⟨rfl, rfl⟩

/-! ## C7: the visibility predicate and exported-only filtering -/

theorem parseDeclsFuncs_exported_filter (ds : List Decl) :
    (parseDeclsFuncs FuncExported ds).1 =
      ((parseDeclsFuncs FuncBoth ds).1).filter (fun f => f.IsExported) := by
  induction ds with
  | nil => rfl
  | cons d rest ih =>
    cases d with
    | genDecl specs => simpa [parseDeclsFuncs] using ih
    | funcDecl fnc =>
      by_cases hexp : astIsExported fnc.name
      · have hstep2 : parseFuncDeclStep FuncExported fnc = ParseFunction fnc := by
          simp [parseFuncDeclStep, hexp, FuncUnexported, FuncExported]
        have hstep3 : parseFuncDeclStep FuncBoth fnc = ParseFunction fnc := by
          simp [parseFuncDeclStep, hexp, FuncUnexported, FuncExported, FuncBoth]
        have hname : ((ParseFunction fnc).1.map (fun f => f.IsExported)) = some true := by
          simp [ParseFunction, Function.IsExported, hexp]
        simp only [parseDeclsFuncs, hstep2, hstep3]
        rcases hpf : (ParseFunction fnc).1 with _ | f
        · simpa [hpf] using ih
        · have : f.IsExported = true := by
            rw [hpf] at hname
            simpa using hname
          simp [hpf, List.filter_cons, this, ih]
      · have hstep2 : parseFuncDeclStep FuncExported fnc = (none, fnc) := by
          simp [parseFuncDeclStep, hexp, FuncUnexported, FuncExported]
        have hstep3 : parseFuncDeclStep FuncBoth fnc = ParseFunction fnc := by
          simp [parseFuncDeclStep, hexp, FuncUnexported, FuncExported, FuncBoth]
        have hname : ((ParseFunction fnc).1.map (fun f => f.IsExported)) = some false := by
          simp [ParseFunction, Function.IsExported, hexp]
        simp only [parseDeclsFuncs, hstep2, hstep3]
        rcases hpf : (ParseFunction fnc).1 with _ | f
        · simpa [hpf] using ih
        · have : f.IsExported = false := by
            rw [hpf] at hname
            simpa using hname
          simp [hpf, List.filter_cons, this, ih]

/-- C7 (confirmed): the default visibility predicate holds exactly of
names whose first character is uppercase (an empty name is not
exported), and extracting a file with the exported-only option returns
exactly the functions of the both-kinds extraction whose names satisfy
the predicate. -/
theorem C7_exported_filter :
    (∀ n : String, astIsExported n =
      match n.data with
      | [] => false
      | c :: _ => c.isUpper) ∧
    (∀ f : Function, f.IsExported = astIsExported f.Name) ∧
    (∀ file : File,
      (ParseFileFuncs file FuncExported).1 =
        ((ParseFileFuncs file FuncBoth).1).filter (fun f => f.IsExported)) := by
  refine ⟨fun n => rfl, fun f => rfl, fun file => ?_⟩
  unfold ParseFileFuncs
  simp only [FuncUnexported, FuncExported, FuncBoth]
  norm_num
  exact parseDeclsFuncs_exported_filter file.decls

/-! ## C10: the zero FuncOption defaults to FuncBoth -/

/-- C10 (confirmed): calling `ParseFileFuncs` with a `FuncOption` in
which neither the exported nor the unexported bit is set behaves
identically to calling it with `FuncBoth`. -/
theorem C10_zero_option_is_both :
    ∀ (file : File) (funcOption : FuncOption),
      funcOption &&& FuncUnexported = 0 → funcOption &&& FuncExported = 0 →
      ParseFileFuncs file funcOption = ParseFileFuncs file FuncBoth := by
  intro file funcOption h1 h2
  have hc : (funcOption &&& FuncUnexported = 0 ∧ funcOption &&& FuncExported = 0) := ⟨h1, h2⟩
  have hb : ¬ (FuncBoth &&& FuncUnexported = 0 ∧ FuncBoth &&& FuncExported = 0) := by decide
  simp only [ParseFileFuncs]
  rw [if_pos hc, if_neg hb]

/-- Witness for C10 at option `0` on the scenario file. -/
theorem C10_zero_option_is_both_witness :
    (0 : FuncOption) &&& FuncUnexported = 0 ∧ (0 : FuncOption) &&& FuncExported = 0 ∧
    ParseFileFuncs fooBarFile 0 = ParseFileFuncs fooBarFile FuncBoth :=
  ⟨rfl, rfl, C10_zero_option_is_both fooBarFile 0 rfl rfl⟩

/-! ## C1: the cross-directory registry merge -/

theorem regLookup_cons (k0 : String) (v0 : Package) (rest : Registry) (k' : String) :
    regLookup ((k0, v0) :: rest) k' = if k0 = k' then some v0 else regLookup rest k' := by
  by_cases h : k0 = k' <;> simp [regLookup, List.find?, h]

theorem regLookup_regSet (r : Registry) (k : String) (v : Package) (k' : String) :
    regLookup (regSet r k v) k' = if k' = k then some v else regLookup r k' := by
  induction r with
  | nil =>
    rw [regSet, regLookup_cons]
    rcases eq_or_ne k k' with h | h
    · rw [if_pos h, if_pos h.symm]
    · rw [if_neg h, if_neg h.symm]
  | cons p rest ih =>
    rcases p with ⟨k0, v0⟩
    rw [regSet]
    by_cases h0 : k0 = k
    · rw [if_pos h0, regLookup_cons, regLookup_cons]
      subst h0
      rcases eq_or_ne k0 k' with h | h
      · rw [if_pos h, if_pos h.symm]
      · simp only [if_neg h, if_neg (fun hh : k' = k0 => h hh.symm)]
    · rw [if_neg h0, regLookup_cons, ih, regLookup_cons]
      rcases eq_or_ne k0 k' with h | h
      · have hk : k' ≠ k := fun hh => h0 (h.trans hh)
        rw [if_pos h, if_neg hk, if_pos h]
      · simp only [if_neg h]

/-- The first directory of the C1 scenario: package `util` with
function `A`, import `"ia"` and interface `I1`. -/
def utilFile1 : File :=
  { pkgName := "util"
    decls := [.funcDecl { name := "A", recv := none, doc := none, docPos := 0, typePos := 1,
                          typeText := "func A()", body := some "b" },
              .genDecl [.typeSpec "I1" (.interfaceType [])]]
    imports := [{ pathValue := "\"ia\"" }] }

/-- The second directory of the C1 scenario: package `util` with
function `B`, import `"ib"` and interface `I2`. -/
def utilFile2 : File :=
  { pkgName := "util"
    decls := [.funcDecl { name := "B", recv := none, doc := none, docPos := 0, typePos := 1,
                          typeText := "func B()", body := some "b" },
              .genDecl [.typeSpec "I2" (.interfaceType [])]]
    imports := [{ pathValue := "\"ib\"" }] }

def utilPkg1 : AstPackage := { name := "util", files := [("u1.go", utilFile1)] }

def utilPkg2 : AstPackage := { name := "util", files := [("u2.go", utilFile2)] }

/-- The walk sequence of the C1 scenario: two sibling directories both
declaring package `util`. -/
def entriesC1 : List WalkEntry :=
  [ { path := "root/d1", isDir := true, walkErr := none, parsed := .ok [utilPkg1] },
    { path := "root/d2", isDir := true, walkErr := none, parsed := .ok [utilPkg2] } ]

/-- C1 (counterexample): in the two-directory `util` scenario the
resulting registry entry holds both functions `A` and `B`, but only
the first directory's imports and interfaces — the second directory's
`Imports` and `Interfaces` are dropped, not appended, so the claim
that all of `Funcs`, `Imports` and `Interfaces` are appended fails. -/
theorem C1_counterexample :
    (regLookup (ParsePackagesFromDir "root" entriesC1 FuncBoth).1 "util").map
        (fun p => (p.Funcs.map (fun f => f.Name), p.Imports,
                   p.Interfaces.map (fun i => i.Name))) =
      some (["A", "B"], ["ia"], ["I1"]) ∧
    ¬ (regLookup (ParsePackagesFromDir "root" entriesC1 FuncBoth).1 "util").map
        (fun p => p.Imports) = some ["ia", "ib"] ∧
    ¬ (regLookup (ParsePackagesFromDir "root" entriesC1 FuncBoth).1 "util").map
        (fun p => p.Interfaces.map (fun i => i.Name)) = some ["I1", "I2"] := by
  refine ⟨rfl, by decide, by decide⟩

/-- C1 (amended): when the registry already has an entry for the
package name, only the new directory's `Funcs` are appended to the
existing entry; the existing `Imports` and `Interfaces` are kept
unchanged and the new directory's are discarded.  In particular, for
two directories declaring package `util`, the first with function `A`
and the second with function `B`, the resulting `util` entry contains
both `A` and `B`. -/
theorem C1_registry_append :
    (∀ (funcOption : FuncOption) (pkgs : Registry) (pkg : AstPackage) (old : Package),
        regLookup pkgs pkg.name = some old →
        ∀ k, regLookup (mergeParsedPkg funcOption pkgs pkg) k =
          if k = pkg.name
          then some { old with Funcs := old.Funcs ++ (ParsePackage pkg funcOption).Funcs }
          else regLookup pkgs k) ∧
    (regLookup (ParsePackagesFromDir "root" entriesC1 FuncBoth).1 "util").map
        (fun p => p.Funcs.map (fun f => f.Name)) = some ["A", "B"] := by
  constructor
  · intro funcOption pkgs pkg old hold k
    unfold mergeParsedPkg
    rw [hold]
    exact regLookup_regSet pkgs pkg.name _ k
  · rfl

/-- Witness for C1's amended merge statement: a registry holding the
first directory's `util` package, merged with the second directory's. -/
theorem C1_registry_append_witness :
    regLookup [("util", ParsePackage utilPkg1 FuncBoth)] utilPkg2.name =
      some (ParsePackage utilPkg1 FuncBoth) ∧
    regLookup (mergeParsedPkg FuncBoth [("util", ParsePackage utilPkg1 FuncBoth)] utilPkg2)
        "util" =
      some { ParsePackage utilPkg1 FuncBoth with
             Funcs := (ParsePackage utilPkg1 FuncBoth).Funcs ++
               (ParsePackage utilPkg2 FuncBoth).Funcs } := by
  have h := (C1_registry_append.1 FuncBoth [("util", ParsePackage utilPkg1 FuncBoth)]
    utilPkg2 (ParsePackage utilPkg1 FuncBoth) rfl) "util"
  rw [if_pos (show ("util" : String) = utilPkg2.name from rfl)] at h
  exact ⟨rfl, h⟩

/-! ## C8: partial result on traversal failure -/

/-- Characterization of the error the `filepath.Walk` callback returns
for one visit: the walk error when one is passed in, a parse error for
a parsed (non-skipped) directory, `none` otherwise. -/
def entryErr (dir : String) (e : WalkEntry) : Option String :=
  match e.walkErr with
  | some err => some err
  | none =>
    if ¬ e.isDir ∨ goHasPrefix e.path (filepathJoin dir "cmd") then none
    else
      match e.parsed with
      | .error err => some err
      | .ok _ => none

theorem walkStep_snd (dir : String) (funcOption : FuncOption) (pkgs : Registry)
    (e : WalkEntry) : (walkStep dir funcOption pkgs e).2 = entryErr dir e := by
  rcases e with ⟨path, isDir, walkErr, parsed⟩
  cases walkErr with
  | some err => rfl
  | none =>
    simp only [walkStep, entryErr]
    by_cases h : ¬ isDir = true ∨ goHasPrefix path (filepathJoin dir "cmd") = true
    · rw [if_pos h, if_pos h]
    · rw [if_neg h, if_neg h]
      cases parsed <;> rfl

theorem walkStep_err_fst (dir : String) (funcOption : FuncOption) (pkgs : Registry)
    (e : WalkEntry) (err : String) (h : entryErr dir e = some err) :
    walkStep dir funcOption pkgs e = (pkgs, some err) := by
  rcases e with ⟨path, isDir, walkErr, parsed⟩
  cases walkErr with
  | some werr =>
    simp only [entryErr] at h
    injection h with h2
    simp only [walkStep, h2]
  | none =>
    simp only [walkStep, entryErr] at h ⊢
    by_cases hskip : ¬ isDir = true ∨ goHasPrefix path (filepathJoin dir "cmd") = true
    · rw [if_pos hskip] at h
      exact absurd h (by simp)
    · rw [if_neg hskip] at h
      rw [if_neg hskip]
      cases parsed with
      | error perr =>
        injection h with h2
        rw [h2]
      | ok l => exact absurd h (by simp)

theorem runWalk_prefix_err (dir : String) (funcOption : FuncOption) (bad : WalkEntry)
    (rest : List WalkEntry) (err : String) (hbad : entryErr dir bad = some err) :
    ∀ (good : List WalkEntry) (pkgs : Registry),
      (∀ e ∈ good, entryErr dir e = none) →
      runWalk dir funcOption pkgs (good ++ bad :: rest) =
        ((runWalk dir funcOption pkgs good).1, some err) := by
  intro good
  induction good with
  | nil =>
    intro pkgs _
    simp only [List.nil_append, runWalk]
    rw [walkStep_err_fst dir funcOption pkgs bad err hbad]
  | cons e good' ih =>
    intro pkgs hgood
    have he : entryErr dir e = none := hgood e (List.mem_cons_self e good')
    have hsnd : (walkStep dir funcOption pkgs e).2 = none := by
      rw [walkStep_snd, he]
    rcases hws : walkStep dir funcOption pkgs e with ⟨pkgs', er⟩
    have her : er = none := by
      rw [hws] at hsnd
      exact hsnd
    subst her
    simp only [List.cons_append, runWalk, hws]
    exact ih pkgs' (fun x hx => hgood x (List.mem_cons_of_mem e hx))

/-- C8 (confirmed): a walk or parse failure aborts the remaining
traversal, and `ParsePackagesFromDir` returns the registry accumulated
from the entries before the failure together with the error — the
entries after the failing one contribute nothing, and the accumulated
packages are not lost. -/
theorem C8_partial_result :
    ∀ (dir : String) (funcOption : FuncOption) (good : List WalkEntry) (bad : WalkEntry)
      (rest : List WalkEntry) (err : String),
      (∀ e ∈ good, entryErr dir e = none) →
      entryErr dir bad = some err →
      ParsePackagesFromDir dir (good ++ bad :: rest) funcOption =
        ((ParsePackagesFromDir dir good funcOption).1, some err) := by
  intro dir funcOption good bad rest err hgood hbad
  unfold ParsePackagesFromDir
  exact runWalk_prefix_err dir funcOption bad rest err hbad good [] hgood

/-- An unreadable path visited after the first `util` directory. -/
def badEntry : WalkEntry :=
  { path := "root/d2", isDir := true, walkErr := some "permission denied",
    parsed := .ok [] }

/-- A directory that would be visited after the failure. -/
def afterEntry : WalkEntry :=
  { path := "root/d3", isDir := true, walkErr := none,
    parsed := .ok [{ name := "zzz", files := [] }] }

/-- Witness for C8: the walk over `util`-then-failure-then-more keeps
the `util` entry and surfaces the error; the directory after the
failure is never parsed into the registry. -/
theorem C8_partial_result_witness :
    (∀ e ∈ [({ path := "root/d1", isDir := true, walkErr := none,
               parsed := .ok [utilPkg1] } : WalkEntry)], entryErr "root" e = none) ∧
    entryErr "root" badEntry = some "permission denied" ∧
    ParsePackagesFromDir "root"
        ([{ path := "root/d1", isDir := true, walkErr := none, parsed := .ok [utilPkg1] }] ++
          badEntry :: [afterEntry]) FuncBoth =
      ((ParsePackagesFromDir "root"
          [{ path := "root/d1", isDir := true, walkErr := none, parsed := .ok [utilPkg1] }]
          FuncBoth).1, some "permission denied") := by
  refine ⟨?_, rfl, ?_⟩
  · intro e he
    simp only [List.mem_singleton] at he
    subst he
    rfl
  · exact C8_partial_result "root" FuncBoth
      [{ path := "root/d1", isDir := true, walkErr := none, parsed := .ok [utilPkg1] }]
      badEntry [afterEntry] "permission denied"
      (by
        intro e he
        simp only [List.mem_singleton] at he
        subst he
        rfl) rfl

/-! ## C9: determinism of extraction

The Go code iterates two maps whose iteration order is unspecified:
`parser.ParseDir`'s `map[string]*ast.Package` (the loop in
`ParsePackagesFromDir`) and `pkg.Files` (inside `MergePackageFiles`,
which canonicalizes by sorting the filenames).  Determinism of the
produced `Package` values therefore means: running the extraction with
any two iteration orders of these maps yields the same package value
for every package name. -/

theorem find?_key_perm {α : Type} (key : α → String) {l₁ l₂ : List α}
    (h : l₁.Perm l₂) :
    ∀ k : String, (l₁.map key).Nodup →
      l₁.find? (fun x => key x = k) = l₂.find? (fun x => key x = k) := by
  induction h with
  | nil =>
    intro k _
    rfl
  | cons x h ih =>
    intro k hn
    simp only [List.map_cons, List.nodup_cons] at hn
    by_cases hx : key x = k
    · rw [List.find?_cons_of_pos _ (by simpa using hx),
          List.find?_cons_of_pos _ (by simpa using hx)]
    · rw [List.find?_cons_of_neg _ (by simpa using hx),
          List.find?_cons_of_neg _ (by simpa using hx)]
      exact ih k hn.2
  | swap x y l =>
    intro k hn
    simp only [List.map_cons, List.nodup_cons, List.mem_cons] at hn
    have hyx : key y ≠ key x := fun hh => hn.1 (Or.inl hh)
    by_cases hy : key y = k <;> by_cases hx : key x = k
    · exact absurd (hy.trans hx.symm) hyx
    · rw [List.find?_cons_of_pos _ (by simpa using hy),
          List.find?_cons_of_neg _ (by simpa using hx),
          List.find?_cons_of_pos _ (by simpa using hy)]
    · rw [List.find?_cons_of_neg _ (by simpa using hy),
          List.find?_cons_of_pos _ (by simpa using hx),
          List.find?_cons_of_pos _ (by simpa using hx)]
    · rw [List.find?_cons_of_neg _ (by simpa using hy),
          List.find?_cons_of_neg _ (by simpa using hx),
          List.find?_cons_of_neg _ (by simpa using hx),
          List.find?_cons_of_neg _ (by simpa using hy)]
  | trans h₁ h₂ ih₁ ih₂ =>
    intro k hn
    have hn₂ := ((h₁.map key).nodup_iff).mp hn
    exact (ih₁ k hn).trans (ih₂ k hn₂)

theorem lookupFile_perm {files₁ files₂ : List (String × File)}
    (h : files₁.Perm files₂) (hn : (files₁.map (fun p => p.1)).Nodup) (fn : String) :
    lookupFile files₁ fn = lookupFile files₂ fn := by
  unfold lookupFile
  rw [find?_key_perm (fun p => p.1) h fn hn]

theorem sortStrings_perm {l₁ l₂ : List String} (h : l₁.Perm l₂) :
    sortStrings l₁ = sortStrings l₂ := by
  apply List.eq_of_perm_of_sorted
    ((List.perm_insertionSort _ l₁).trans (h.trans (List.perm_insertionSort _ l₂).symm))
    (List.sorted_insertionSort _ l₁) (List.sorted_insertionSort _ l₂)

/-- Two parse results of the same directory content for one package:
equal package name and the same file association (distinct filenames),
presented in a possibly different map-iteration order. -/
def AstPackageEquiv (p q : AstPackage) : Prop :=
  p.name = q.name ∧ p.files.Perm q.files ∧ (p.files.map (fun x => x.1)).Nodup

theorem MergePackageFiles_equiv {p q : AstPackage} (h : AstPackageEquiv p q) :
    MergePackageFiles p = MergePackageFiles q := by
  obtain ⟨hname, hperm, hnodup⟩ := h
  have hsort : sortStrings (p.files.map (fun x => x.1)) =
      sortStrings (q.files.map (fun x => x.1)) :=
    sortStrings_perm (hperm.map _)
  have hfun : lookupFile p.files = lookupFile q.files :=
    funext (fun fn => lookupFile_perm hperm hnodup fn)
  unfold MergePackageFiles
  rw [hname, hsort, hfun]

theorem ParsePackage_equiv {p q : AstPackage} (h : AstPackageEquiv p q)
    (funcOption : FuncOption) : ParsePackage p funcOption = ParsePackage q funcOption := by
  unfold ParsePackage
  rw [MergePackageFiles_equiv h, h.1]

/-- The package a directory's parse result contributes for a name. -/
def findPkg (l : List AstPackage) (k : String) : Option AstPackage :=
  l.find? (fun p => p.name = k)

theorem foldl_mergeParsedPkg_lookup (funcOption : FuncOption) :
    ∀ (l : List AstPackage) (pkgs : Registry) (k : String),
      (l.map (fun p => p.name)).Nodup →
      regLookup (l.foldl (mergeParsedPkg funcOption) pkgs) k =
        match findPkg l k with
        | none => regLookup pkgs k
        | some p =>
          match regLookup pkgs k with
          | none => some (ParsePackage p funcOption)
          | some old =>
            some { old with Funcs := old.Funcs ++ (ParsePackage p funcOption).Funcs } := by
  intro l
  induction l with
  | nil =>
    intro pkgs k _
    rfl
  | cons p0 rest ih =>
    intro pkgs k hn
    simp only [List.map_cons, List.nodup_cons] at hn
    rw [List.foldl_cons, ih _ k hn.2]
    by_cases hk : p0.name = k
    · have hrest : findPkg rest k = none := by
        apply List.find?_eq_none.mpr
        intro x hx
        simp only [decide_eq_true_eq]
        intro hxk
        exact hn.1 (hk ▸ hxk ▸ List.mem_map_of_mem (fun p => p.name) hx)
      have hfind : findPkg (p0 :: rest) k = some p0 :=
        List.find?_cons_of_pos _ (by simpa using hk)
      rw [hrest, hfind]
      unfold mergeParsedPkg
      rw [hk]
      rcases hreg : regLookup pkgs k with _ | old <;>
        simp [hreg, regLookup_regSet]
    · have hfind : findPkg (p0 :: rest) k = findPkg rest k :=
        List.find?_cons_of_neg _ (by simpa using hk)
      rw [hfind]
      have hne : k ≠ p0.name := fun hh => hk hh.symm
      have hlk : regLookup (mergeParsedPkg funcOption pkgs p0) k = regLookup pkgs k := by
        unfold mergeParsedPkg
        rcases h0 : regLookup pkgs p0.name with _ | old <;>
          simp only [h0] <;> rw [regLookup_regSet, if_neg hne]
      rw [hlk]

/-- Two iteration orders of one directory's parse result: the same
name-keyed set of packages (names distinct), each package given with a
possibly permuted file map, the whole list in a possibly permuted
order. -/
def PkgListEquiv (l₁ l₂ : List AstPackage) : Prop :=
  (l₁.map (fun p => p.name)).Nodup ∧
  ∃ mid, List.Forall₂ AstPackageEquiv l₁ mid ∧ mid.Perm l₂

theorem forall₂_names_eq {l₁ mid : List AstPackage}
    (hf : List.Forall₂ AstPackageEquiv l₁ mid) :
    l₁.map (fun p => p.name) = mid.map (fun p => p.name) := by
  induction hf with
  | nil => rfl
  | cons hpq hrest ih => simp only [List.map_cons, hpq.1, ih]

theorem findPkg_forall₂ {l₁ mid : List AstPackage}
    (hf : List.Forall₂ AstPackageEquiv l₁ mid) (k : String) :
    (findPkg l₁ k = none ∧ findPkg mid k = none) ∨
    (∃ p q, findPkg l₁ k = some p ∧ findPkg mid k = some q ∧ AstPackageEquiv p q) := by
  induction hf with
  | nil => exact Or.inl ⟨rfl, rfl⟩
  | cons hpq hrest ih =>
    rename_i p q t₁ t₂
    by_cases hk : p.name = k
    · right
      refine ⟨p, q, List.find?_cons_of_pos _ (by simpa using hk),
        List.find?_cons_of_pos _ (by simp [← hpq.1, hk]), hpq⟩
    · have hqk : ¬ q.name = k := fun hh => hk (hpq.1 ▸ hh)
      unfold findPkg
      rw [List.find?_cons_of_neg _ (by simpa using hk),
          List.find?_cons_of_neg _ (by simpa using hqk)]
      exact ih

theorem foldl_mergeParsedPkg_equiv (funcOption : FuncOption)
    {l₁ l₂ : List AstPackage} (h : PkgListEquiv l₁ l₂)
    {pkgs₁ pkgs₂ : Registry} (hp : ∀ k, regLookup pkgs₁ k = regLookup pkgs₂ k) :
    ∀ k, regLookup (l₁.foldl (mergeParsedPkg funcOption) pkgs₁) k =
         regLookup (l₂.foldl (mergeParsedPkg funcOption) pkgs₂) k := by
  obtain ⟨hn₁, mid, hf, hperm⟩ := h
  intro k
  have hnames := forall₂_names_eq hf
  have hnmid : (mid.map (fun p => p.name)).Nodup := hnames ▸ hn₁
  have hn₂ : (l₂.map (fun p => p.name)).Nodup :=
    ((hperm.map (fun p => p.name)).nodup_iff).mp hnmid
  have hfind₂ : findPkg l₂ k = findPkg mid k := by
    unfold findPkg
    exact (find?_key_perm (fun p : AstPackage => p.name) hperm k hnmid).symm
  rw [foldl_mergeParsedPkg_lookup funcOption l₁ pkgs₁ k hn₁,
      foldl_mergeParsedPkg_lookup funcOption l₂ pkgs₂ k hn₂, hfind₂]
  rcases findPkg_forall₂ hf k with ⟨h1, h2⟩ | ⟨p, q, h1, h2, hpq⟩
  · rw [h1, h2]
    exact hp k
  · simp only [h1, h2]
    rw [ParsePackage_equiv hpq funcOption, hp k]

/-- Two runs of the walk over the same directory tree: the same visit
sequence, where each visited directory's parse result is the same up
to map-iteration order. -/
def EntryEquiv (e₁ e₂ : WalkEntry) : Prop :=
  e₁.path = e₂.path ∧ e₁.isDir = e₂.isDir ∧ e₁.walkErr = e₂.walkErr ∧
  ((∃ err, e₁.parsed = .error err ∧ e₂.parsed = .error err) ∨
   (∃ l₁ l₂, e₁.parsed = .ok l₁ ∧ e₂.parsed = .ok l₂ ∧ PkgListEquiv l₁ l₂))

theorem walkStep_equiv (dir : String) (funcOption : FuncOption)
    {pkgs₁ pkgs₂ : Registry} (hp : ∀ k, regLookup pkgs₁ k = regLookup pkgs₂ k)
    {e₁ e₂ : WalkEntry} (he : EntryEquiv e₁ e₂) :
    (walkStep dir funcOption pkgs₁ e₁).2 = (walkStep dir funcOption pkgs₂ e₂).2 ∧
    ∀ k, regLookup (walkStep dir funcOption pkgs₁ e₁).1 k =
         regLookup (walkStep dir funcOption pkgs₂ e₂).1 k := by
  obtain ⟨hpath, hdir, herr, hparsed⟩ := he
  rcases e₁ with ⟨path₁, isDir₁, walkErr₁, parsed₁⟩
  rcases e₂ with ⟨path₂, isDir₂, walkErr₂, parsed₂⟩
  simp only at hpath hdir herr hparsed
  subst hpath
  subst hdir
  subst herr
  cases walkErr₁ with
  | some err => exact ⟨rfl, fun k => hp k⟩
  | none =>
    simp only [walkStep]
    by_cases hskip : ¬ isDir₁ = true ∨ goHasPrefix path₁ (filepathJoin dir "cmd") = true
    · rw [if_pos hskip, if_pos hskip]
      exact ⟨rfl, fun k => hp k⟩
    · rw [if_neg hskip, if_neg hskip]
      rcases hparsed with ⟨err, hp₁, hp₂⟩ | ⟨l₁, l₂, hp₁, hp₂, hl⟩
      · rw [hp₁, hp₂]
        exact ⟨rfl, fun k => hp k⟩
      · rw [hp₁, hp₂]
        exact ⟨rfl, foldl_mergeParsedPkg_equiv funcOption hl hp⟩

theorem runWalk_equiv (dir : String) (funcOption : FuncOption)
    {es₁ es₂ : List WalkEntry} (h : List.Forall₂ EntryEquiv es₁ es₂) :
    ∀ {pkgs₁ pkgs₂ : Registry}, (∀ k, regLookup pkgs₁ k = regLookup pkgs₂ k) →
      (runWalk dir funcOption pkgs₁ es₁).2 = (runWalk dir funcOption pkgs₂ es₂).2 ∧
      ∀ k, regLookup (runWalk dir funcOption pkgs₁ es₁).1 k =
           regLookup (runWalk dir funcOption pkgs₂ es₂).1 k := by
  induction h with
  | nil =>
    intro pkgs₁ pkgs₂ hp
    exact ⟨rfl, hp⟩
  | cons he hrest ih =>
    rename_i e₁ e₂ t₁ t₂
    intro pkgs₁ pkgs₂ hp
    obtain ⟨hsnd, hfst⟩ := walkStep_equiv dir funcOption hp he
    rcases hw₁ : walkStep dir funcOption pkgs₁ e₁ with ⟨p₁, er₁⟩
    rcases hw₂ : walkStep dir funcOption pkgs₂ e₂ with ⟨p₂, er₂⟩
    rw [hw₁, hw₂] at hsnd hfst
    simp only at hsnd hfst
    subst hsnd
    simp only [runWalk, hw₁, hw₂]
    cases er₁ with
    | none => exact ih hfst
    | some err => exact ⟨rfl, hfst⟩

/-- C9 (confirmed): extraction is deterministic.  The walk's visit
sequence is fixed (lexical order), and the only nondeterminism in the
Go code is the iteration order of the two maps; for any two runs whose
map iteration orders differ arbitrarily, the resulting registries hold
identical `Package` values for every package name, and the returned
errors agree. -/
theorem C9_deterministic :
    ∀ (dir : String) (funcOption : FuncOption) (entries₁ entries₂ : List WalkEntry),
      List.Forall₂ EntryEquiv entries₁ entries₂ →
      (ParsePackagesFromDir dir entries₁ funcOption).2 =
        (ParsePackagesFromDir dir entries₂ funcOption).2 ∧
      ∀ k, regLookup (ParsePackagesFromDir dir entries₁ funcOption).1 k =
           regLookup (ParsePackagesFromDir dir entries₂ funcOption).1 k := by
  intro dir funcOption entries₁ entries₂ h
  unfold ParsePackagesFromDir
  exact runWalk_equiv dir funcOption h (fun k => rfl)

def detFileA : File :=
  { pkgName := "alpha"
    decls := [.funcDecl { name := "FA", recv := none, doc := none, docPos := 0, typePos := 1,
                          typeText := "func FA()", body := some "b" }]
    imports := [{ pathValue := "\"x\"" }] }

def detFileB : File :=
  { pkgName := "alpha"
    decls := [.funcDecl { name := "FB", recv := none, doc := none, docPos := 0, typePos := 1,
                          typeText := "func FB()", body := some "b" }]
    imports := [{ pathValue := "\"y\"" }] }

def detFileC : File := { pkgName := "beta", decls := [], imports := [] }

def alphaPkg1 : AstPackage :=
  { name := "alpha", files := [("a.go", detFileA), ("b.go", detFileB)] }

def alphaPkg2 : AstPackage :=
  { name := "alpha", files := [("b.go", detFileB), ("a.go", detFileA)] }

def betaPkg : AstPackage := { name := "beta", files := [("c.go", detFileC)] }

/-- One directory visit, with packages `alpha` (two files) and `beta`
enumerated in one map order. -/
def detEntry1 : WalkEntry :=
  { path := "root/a", isDir := true, walkErr := none, parsed := .ok [alphaPkg1, betaPkg] }

/-- The same directory visit with both maps enumerated in the other
order. -/
def detEntry2 : WalkEntry :=
  { path := "root/a", isDir := true, walkErr := none, parsed := .ok [betaPkg, alphaPkg2] }

/-- Witness for C9: one directory holding packages `alpha` and `beta`,
walked with both map-iteration orders reversed, yields the same error
and the same `Package` value for each package name. -/
theorem C9_deterministic_witness :
    List.Forall₂ EntryEquiv [detEntry1] [detEntry2] ∧
    (ParsePackagesFromDir "root" [detEntry1] FuncBoth).2 =
      (ParsePackagesFromDir "root" [detEntry2] FuncBoth).2 ∧
    regLookup (ParsePackagesFromDir "root" [detEntry1] FuncBoth).1 "alpha" =
      regLookup (ParsePackagesFromDir "root" [detEntry2] FuncBoth).1 "alpha" ∧
    regLookup (ParsePackagesFromDir "root" [detEntry1] FuncBoth).1 "beta" =
      regLookup (ParsePackagesFromDir "root" [detEntry2] FuncBoth).1 "beta" := by
  have hpkg : AstPackageEquiv alphaPkg1 alphaPkg2 :=
    ⟨rfl, List.Perm.swap ("b.go", detFileB) ("a.go", detFileA) [], by decide⟩
  have hbeta : AstPackageEquiv betaPkg betaPkg := ⟨rfl, List.Perm.refl _, by decide⟩
  have hlist : PkgListEquiv [alphaPkg1, betaPkg] [betaPkg, alphaPkg2] :=
    ⟨by decide, [alphaPkg2, betaPkg],
      List.Forall₂.cons hpkg (List.Forall₂.cons hbeta List.Forall₂.nil),
      List.Perm.swap betaPkg alphaPkg2 []⟩
  have hequiv : List.Forall₂ EntryEquiv [detEntry1] [detEntry2] :=
    List.Forall₂.cons
      ⟨rfl, rfl, rfl, Or.inr ⟨[alphaPkg1, betaPkg], [betaPkg, alphaPkg2], rfl, rfl, hlist⟩⟩
      List.Forall₂.nil
  have h := C9_deterministic "root" FuncBoth [detEntry1] [detEntry2] hequiv
  exact ⟨hequiv, h.1, h.2 "alpha", h.2 "beta"⟩

/-! ## C6: merge deduplication within one directory

The declaration-filtering loop of `MergePackageFiles` keeps, for every
distinct filter key (`nameOf`), exactly one function declaration: the
first occurrence, unless it has no doc comment and a later duplicate
arrives, in which case the later declaration replaces it (at the later
position).  We prove that the surviving function keys form a
duplicate-free list with the same membership as the keys of the input
declarations, and derive the cardinality statements from that. -/

/-- The filter key contributed by a declaration: `nameOf` for a
function declaration, nothing otherwise. -/
def declFuncName : Decl → Option String
  | .funcDecl f => some (nameOf f)
  | _ => none

/-- The filter keys of a declaration list, in order. -/
def funcNamesOf (ds : List Decl) : List String := ds.filterMap declFuncName

/-- The filter keys of the surviving entries of a slot list. -/
def svNames (arr : List (Option Decl)) : List String := funcNamesOf arr.reduceOption

theorem svNames_append_none (arr : List (Option Decl)) :
    svNames (arr ++ [none]) = svNames arr := by
  unfold svNames funcNamesOf
  rw [List.reduceOption_append]
  simp [List.reduceOption]

theorem svNames_append_some (arr : List (Option Decl)) (d : Decl) :
    svNames (arr ++ [some d]) = svNames arr ++ (declFuncName d).toList := by
  unfold svNames funcNamesOf
  rw [List.reduceOption_append, List.filterMap_append]
  rcases h : declFuncName d with _ | n <;> simp [List.reduceOption, h]

theorem svNames_decomp (A B : List (Option Decl)) (g : FuncDecl) :
    svNames (A ++ some (.funcDecl g) :: B) = svNames A ++ nameOf g :: svNames B := by
  unfold svNames funcNamesOf
  rw [List.reduceOption_append]
  simp [List.reduceOption, declFuncName]

theorem svNames_decomp_none (A B : List (Option Decl)) :
    svNames (A ++ none :: B) = svNames A ++ svNames B := by
  unfold svNames funcNamesOf
  rw [List.reduceOption_append]
  simp [List.reduceOption]

theorem getElem?_append_left_of_some {α : Type} {l₁ : List α} {j : Nat} {x : α}
    (h : l₁[j]? = some x) (l₂ : List α) : (l₁ ++ l₂)[j]? = some x := by
  have hj : j < l₁.length := by
    by_contra hge
    rw [List.getElem?_eq_none (Nat.le_of_not_lt hge)] at h
    cases h
  rw [List.getElem?_append_left hj]
  exact h

theorem getElem?_decomp {α : Type} (l : List α) (j : Nat) (x : α) (h : l[j]? = some x) :
    ∃ A B, l = A ++ x :: B ∧ A.length = j ∧ ∀ v, l.set j v = A ++ v :: B := by
  induction l generalizing j with
  | nil => cases h
  | cons a t ih =>
    cases j with
    | zero =>
      simp only [List.getElem?_cons_zero, Option.some.injEq] at h
      exact ⟨[], t, by rw [h]; rfl, rfl, fun v => rfl⟩
    | succ j =>
      simp only [List.getElem?_cons_succ] at h
      obtain ⟨A, B, h1, h2, h3⟩ := ih j h
      refine ⟨a :: A, B, by rw [List.cons_append, ← h1], by simp [h2], fun v => ?_⟩
      show a :: t.set j v = a :: A ++ v :: B
      rw [h3 v]
      rfl

theorem lookupIdx_append_self {m : List (String × Nat)} {n : String} (v : Nat)
    (h : lookupIdx m n = none) : lookupIdx (m ++ [(n, v)]) n = some v := by
  unfold lookupIdx at h ⊢
  rw [List.find?_append]
  rcases hf : m.find? (fun p => p.1 = n) with _ | p
  · rw [hf]
    simp [List.find?]
  · rw [hf] at h
    cases h

theorem lookupIdx_append_other {m : List (String × Nat)} {n n' : String} (v : Nat)
    (h : n' ≠ n) : lookupIdx (m ++ [(n, v)]) n' = lookupIdx m n' := by
  unfold lookupIdx
  rw [List.find?_append]
  rcases hf : m.find? (fun p => p.1 = n') with _ | p
  · rw [hf]
    have hne : ¬ (n = n') := fun hh => h hh.symm
    simp [List.find?, hne]
  · rw [hf]
    rfl

/-- The invariant of the declaration-filtering loop relating the state
to the filter keys `seen` of the declarations processed so far. -/
structure MergeInv (s : MergeState) (seen : List String) : Prop where
  sv_nodup : (svNames s.arr).Nodup
  sv_mem : ∀ m, m ∈ svNames s.arr ↔ m ∈ seen
  idx_ok : ∀ n j, lookupIdx s.idx n = some j →
    ∃ x, s.arr[j]? = some x ∧
      (x = none ∨ ∃ g, x = some (.funcDecl g) ∧ nameOf g = n)
  seen_iff : ∀ m, m ∈ seen ↔ (lookupIdx s.idx m).isSome

theorem mergeInv_drop {s : MergeState} {seen : List String} (h : MergeInv s seen)
    {n : String} {j : Nat} (hli : lookupIdx s.idx n = some j) :
    MergeInv ⟨s.arr ++ [none], s.idx⟩ (seen ++ [n]) := by
  obtain ⟨hnodup, hmem, hidx, hseen⟩ := h
  have hnseen : n ∈ seen := (hseen n).mpr (by rw [hli]; rfl)
  have hnsv : n ∈ svNames s.arr := (hmem n).mpr hnseen
  refine ⟨?_, ?_, ?_, ?_⟩
  · rw [svNames_append_none]
    exact hnodup
  · intro m
    rw [svNames_append_none, List.mem_append, List.mem_singleton]
    constructor
    · intro hm
      exact Or.inl ((hmem m).mp hm)
    · rintro (hm | rfl)
      · exact (hmem m).mpr hm
      · exact hnsv
  · intro n' j' hl'
    obtain ⟨x, hx, hprop⟩ := hidx n' j' hl'
    exact ⟨x, getElem?_append_left_of_some hx _, hprop⟩
  · intro m
    rw [List.mem_append, List.mem_singleton]
    constructor
    · rintro (hm | rfl)
      · exact (hseen m).mp hm
      · rw [hli]
        rfl
    · intro hm
      exact Or.inl ((hseen m).mpr hm)

theorem getElem?_append_cons {α : Type} (A : List α) (x : α) (B : List α) :
    (A ++ x :: B)[A.length]? = some x := by
  induction A with
  | nil => simp
  | cons a t ih => simpa using ih

theorem mergeInv_step {s : MergeState} {seen : List String} (h : MergeInv s seen) (d : Decl) :
    MergeInv (mergeDeclStep s d) (seen ++ (declFuncName d).toList) := by
  obtain ⟨hnodup, hmem, hidx, hseen⟩ := h
  cases d with
  | genDecl specs =>
    have hstep : mergeDeclStep s (.genDecl specs) = ⟨s.arr ++ [some (.genDecl specs)], s.idx⟩ := rfl
    have hsv : svNames (s.arr ++ [some (.genDecl specs)]) = svNames s.arr := by
      rw [svNames_append_some]
      simp [declFuncName]
    have hsee : seen ++ (declFuncName (.genDecl specs)).toList = seen := by
      simp [declFuncName]
    rw [hstep, hsee]
    refine ⟨?_, ?_, ?_, hseen⟩
    · rw [hsv]
      exact hnodup
    · intro m
      rw [hsv]
      exact hmem m
    · intro n' j' hl'
      obtain ⟨x, hx, hp⟩ := hidx n' j' hl'
      exact ⟨x, getElem?_append_left_of_some hx _, hp⟩
  | funcDecl f =>
    have hsee : seen ++ (declFuncName (.funcDecl f)).toList = seen ++ [nameOf f] := rfl
    rw [hsee]
    rcases hli : lookupIdx s.idx (nameOf f) with _ | j
    · -- first occurrence of the key: keep the declaration, record the slot
      have hstep : mergeDeclStep s (.funcDecl f) =
          ⟨s.arr ++ [some (.funcDecl f)], s.idx ++ [(nameOf f, s.arr.length)]⟩ := by
        simp only [mergeDeclStep, hli]
      have hnotseen : nameOf f ∉ seen := by
        intro hin
        have hs := (hseen _).mp hin
        rw [hli] at hs
        simp at hs
      have hnotsv : nameOf f ∉ svNames s.arr := fun hm => hnotseen ((hmem _).mp hm)
      have hsv : svNames (s.arr ++ [some (.funcDecl f)]) = svNames s.arr ++ [nameOf f] := by
        rw [svNames_append_some]
        rfl
      rw [hstep]
      refine ⟨?_, ?_, ?_, ?_⟩
      · rw [hsv, List.nodup_append]
        refine ⟨hnodup, List.nodup_singleton _, ?_⟩
        intro a ha hb
        rw [List.mem_singleton] at hb
        subst hb
        exact hnotsv ha
      · intro m
        rw [hsv]
        simp only [List.mem_append, List.mem_singleton]
        constructor
        · rintro (hm | rfl)
          · exact Or.inl ((hmem m).mp hm)
          · exact Or.inr rfl
        · rintro (hm | rfl)
          · exact Or.inl ((hmem m).mpr hm)
          · exact Or.inr rfl
      · intro n' j' hl'
        by_cases hn' : n' = nameOf f
        · subst hn'
          rw [lookupIdx_append_self _ hli] at hl'
          injection hl' with hj'
          subst hj'
          refine ⟨some (.funcDecl f), ?_, Or.inr ⟨f, rfl, rfl⟩⟩
          exact getElem?_append_cons s.arr (some (.funcDecl f)) []
        · rw [lookupIdx_append_other _ hn'] at hl'
          obtain ⟨x, hx, hp⟩ := hidx n' j' hl'
          exact ⟨x, getElem?_append_left_of_some hx _, hp⟩
      · intro m
        rw [List.mem_append, List.mem_singleton]
        by_cases hm : m = nameOf f
        · subst hm
          rw [lookupIdx_append_self _ hli]
          simp
        · rw [lookupIdx_append_other _ hm]
          simp only [hm, or_false]
          exact hseen m
    · -- the key was declared already
      obtain ⟨x, hx, hp⟩ := hidx _ j hli
      rcases hp with rfl | ⟨g, rfl, hgname⟩
      · -- the recorded slot was cleared earlier: drop the new declaration
        have hstep : mergeDeclStep s (.funcDecl f) = ⟨s.arr ++ [none], s.idx⟩ := by
          simp only [mergeDeclStep, hli, hx]
        rw [hstep]
        exact mergeInv_drop ⟨hnodup, hmem, hidx, hseen⟩ hli
      · by_cases hdoc : g.doc = none
        · -- existing declaration has no doc: clear it, keep the new one
          have hstep : mergeDeclStep s (.funcDecl f) =
              ⟨(s.arr.set j none) ++ [some (.funcDecl f)], s.idx⟩ := by
            simp only [mergeDeclStep, hli, hx]
            rw [if_pos hdoc]
          obtain ⟨A, B, hAB, hlen, hset⟩ := getElem?_decomp s.arr j (some (.funcDecl g)) hx
          have hsv : svNames s.arr = svNames A ++ nameOf f :: svNames B := by
            rw [hAB, svNames_decomp, hgname]
          have harr' : svNames ((s.arr.set j none) ++ [some (.funcDecl f)]) =
              (svNames A ++ svNames B) ++ [nameOf f] := by
            rw [hset none, svNames_append_some, svNames_decomp_none]
            rfl
          have hperm : ((svNames A ++ svNames B) ++ [nameOf f]).Perm
              (svNames A ++ nameOf f :: svNames B) :=
            (List.perm_append_singleton _ _).trans List.perm_middle.symm
          rw [hstep]
          refine ⟨?_, ?_, ?_, ?_⟩
          · rw [harr']
            exact (hperm.nodup_iff).mpr (hsv ▸ hnodup)
          · intro m
            rw [harr', hperm.mem_iff, ← hsv, List.mem_append, List.mem_singleton]
            constructor
            · intro hm
              exact Or.inl ((hmem m).mp hm)
            · rintro (hm | rfl)
              · exact (hmem m).mpr hm
              · rw [hsv]
                exact List.mem_append_right _ (List.mem_cons_self _ _)
          · intro n' j' hl'
            obtain ⟨x', hx', hp'⟩ := hidx n' j' hl'
            by_cases hj : j' = j
            · subst hj
              refine ⟨none, ?_, Or.inl rfl⟩
              have hsets : (s.arr.set j' none)[j']? = some none := by
                rw [hset none, ← hlen]
                exact getElem?_append_cons A none B
              exact getElem?_append_left_of_some hsets _
            · refine ⟨x', ?_, hp'⟩
              have hne : (s.arr.set j none)[j']? = some x' := by
                rw [List.getElem?_set_ne (fun hh : j = j' => hj hh.symm)]
                exact hx'
              exact getElem?_append_left_of_some hne _
          · intro m
            rw [List.mem_append, List.mem_singleton]
            constructor
            · rintro (hm | rfl)
              · exact (hseen m).mp hm
              · rw [hli]
                rfl
            · intro hm
              exact Or.inl ((hseen m).mpr hm)
        · -- existing declaration has a doc: drop the new one
          have hstep : mergeDeclStep s (.funcDecl f) = ⟨s.arr ++ [none], s.idx⟩ := by
            simp only [mergeDeclStep, hli, hx]
            rw [if_neg hdoc]
          rw [hstep]
          exact mergeInv_drop ⟨hnodup, hmem, hidx, hseen⟩ hli

theorem mergeInv_init : MergeInv ⟨[], []⟩ [] := by
  refine ⟨?_, ?_, ?_, ?_⟩
  · exact List.Pairwise.nil
  · intro m
    exact Iff.rfl
  · intro n j hl
    cases hl
  · intro m
    simp [lookupIdx, List.find?]

theorem mergeInv_foldl :
    ∀ (ds : List Decl) (s : MergeState) (seen : List String), MergeInv s seen →
      MergeInv (ds.foldl mergeDeclStep s) (seen ++ funcNamesOf ds) := by
  intro ds
  induction ds with
  | nil =>
    intro s seen h
    simpa [funcNamesOf] using h
  | cons d rest ih =>
    intro s seen h
    have h2 := ih _ _ (mergeInv_step h d)
    rw [List.foldl_cons]
    have hsee : seen ++ funcNamesOf (d :: rest) =
        (seen ++ (declFuncName d).toList) ++ funcNamesOf rest := by
      rw [List.append_assoc]
      unfold funcNamesOf
      rw [List.filterMap_cons]
      rcases hd : declFuncName d with _ | n <;> simp
    rw [hsee]
    exact h2

/-- The surviving filter keys of the declaration filtering: a
duplicate-free list with the same members as the input keys. -/
theorem dedupFuncDecls_names (ds : List Decl) :
    (funcNamesOf (dedupFuncDecls ds)).Nodup ∧
    ∀ n, n ∈ funcNamesOf (dedupFuncDecls ds) ↔ n ∈ funcNamesOf ds := by
  have h := mergeInv_foldl ds ⟨[], []⟩ [] mergeInv_init
  rw [List.nil_append] at h
  exact ⟨h.sv_nodup, h.sv_mem⟩

theorem mergeDeclStep_arr_mem (s : MergeState) (d : Decl) :
    ∀ y ∈ (mergeDeclStep s d).arr, y ∈ s.arr ∨ y = none ∨ y = some d := by
  intro y hy
  have hmem3 : ∀ (l : List (Option Decl)) (z : Option Decl),
      y ∈ l ++ [z] → y ∈ l ∨ y = z := by
    intro l z hz
    rcases List.mem_append.mp hz with h | h
    · exact Or.inl h
    · exact Or.inr (List.mem_singleton.mp h)
  cases d with
  | genDecl specs =>
    rcases hmem3 s.arr _ hy with h | h
    · exact Or.inl h
    · exact Or.inr (Or.inr h)
  | funcDecl f =>
    rcases hli : lookupIdx s.idx (nameOf f) with _ | j
    · have hstep : (mergeDeclStep s (.funcDecl f)).arr = s.arr ++ [some (.funcDecl f)] := by
        simp only [mergeDeclStep, hli]
      rw [hstep] at hy
      rcases hmem3 s.arr _ hy with h | h
      · exact Or.inl h
      · exact Or.inr (Or.inr h)
    · rcases hx : s.arr[j]? with _ | x
      · have hstep : (mergeDeclStep s (.funcDecl f)).arr = s.arr ++ [none] := by
          simp only [mergeDeclStep, hli, hx]
        rw [hstep] at hy
        rcases hmem3 s.arr _ hy with h | h
        · exact Or.inl h
        · exact Or.inr (Or.inl h)
      · cases x with
        | none =>
          have hstep : (mergeDeclStep s (.funcDecl f)).arr = s.arr ++ [none] := by
            simp only [mergeDeclStep, hli, hx]
          rw [hstep] at hy
          rcases hmem3 s.arr _ hy with h | h
          · exact Or.inl h
          · exact Or.inr (Or.inl h)
        | some d2 =>
          cases d2 with
          | genDecl specs2 =>
            have hstep : (mergeDeclStep s (.funcDecl f)).arr = s.arr ++ [none] := by
              simp only [mergeDeclStep, hli, hx]
            rw [hstep] at hy
            rcases hmem3 s.arr _ hy with h | h
            · exact Or.inl h
            · exact Or.inr (Or.inl h)
          | funcDecl g =>
            by_cases hdoc : g.doc = none
            · have hstep : (mergeDeclStep s (.funcDecl f)).arr =
                  (s.arr.set j none) ++ [some (.funcDecl f)] := by
                simp only [mergeDeclStep, hli, hx]
                rw [if_pos hdoc]
              rw [hstep] at hy
              rcases hmem3 _ _ hy with h | h
              · rcases List.mem_or_eq_of_mem_set h with h2 | h2
                · exact Or.inl h2
                · exact Or.inr (Or.inl h2)
              · exact Or.inr (Or.inr h)
            · have hstep : (mergeDeclStep s (.funcDecl f)).arr = s.arr ++ [none] := by
                simp only [mergeDeclStep, hli, hx]
                rw [if_neg hdoc]
              rw [hstep] at hy
              rcases hmem3 s.arr _ hy with h | h
              · exact Or.inl h
              · exact Or.inr (Or.inl h)

theorem foldl_merge_arr_mem :
    ∀ (ds : List Decl) (s : MergeState) (y : Option Decl),
      y ∈ (ds.foldl mergeDeclStep s).arr → y ∈ s.arr ∨ y = none ∨ ∃ d ∈ ds, y = some d := by
  intro ds
  induction ds with
  | nil =>
    intro s y hy
    exact Or.inl hy
  | cons d rest ih =>
    intro s y hy
    rw [List.foldl_cons] at hy
    rcases ih _ y hy with h | h | ⟨d2, hd2, hyd⟩
    · rcases mergeDeclStep_arr_mem s d y h with h2 | h2 | h2
      · exact Or.inl h2
      · exact Or.inr (Or.inl h2)
      · exact Or.inr (Or.inr ⟨d, List.mem_cons_self _ _, h2⟩)
    · exact Or.inr (Or.inl h)
    · exact Or.inr (Or.inr ⟨d2, List.mem_cons_of_mem _ hd2, hyd⟩)

/-- Every survivor of the declaration filtering is one of the input
declarations. -/
theorem dedupFuncDecls_mem (ds : List Decl) :
    ∀ d2 ∈ dedupFuncDecls ds, d2 ∈ ds := by
  intro d2 hd2
  unfold dedupFuncDecls at hd2
  rw [List.reduceOption_mem_iff] at hd2
  rcases foldl_merge_arr_mem ds ⟨[], []⟩ (some d2) hd2 with h | h | ⟨d3, hd3, heq⟩
  · cases h
  · cases h
  · injection heq with heq
    rw [heq]
    exact hd3

/-! ### Which occurrence of a duplicate key survives

The filter's replacement test reads only the recorded declaration's
doc comment, so per filter key the surviving declaration is fully
determined by the first two occurrences: the first survives when it
has a doc comment or no duplicate follows; otherwise its slot is
cleared and the second occurrence survives — documented or not — and
every later duplicate is dropped against the cleared slot. -/

/-- The occurrences of filter key `n` among a declaration list, in
order. -/
def keyOccs (n : String) (ds : List Decl) : List FuncDecl :=
  ds.filterMap (fun d =>
    match d with
    | .funcDecl f => if nameOf f = n then some f else none
    | _ => none)

/-- The declaration that survives the filtering for one key, as a
function of that key's occurrence list. -/
def survivorSpec : List FuncDecl → Option FuncDecl
  | [] => none
  | [f] => some f
  | f :: g :: _ => if f.doc = none then some g else some f

/-- The surviving occurrences of key `n` in a slot list. -/
def svOccs (n : String) (arr : List (Option Decl)) : List FuncDecl :=
  keyOccs n arr.reduceOption

theorem keyOccs_append (n : String) (ds ds' : List Decl) :
    keyOccs n (ds ++ ds') = keyOccs n ds ++ keyOccs n ds' :=
  List.filterMap_append ds ds' _

theorem keyOccs_single_fd (n : String) (f : FuncDecl) :
    keyOccs n [Decl.funcDecl f] = if nameOf f = n then [f] else [] := by
  by_cases h : nameOf f = n <;> simp [keyOccs, h]

theorem keyOccs_single_gen (n : String) (specs : List Spec) :
    keyOccs n [Decl.genDecl specs] = [] := rfl

theorem mem_keyOccs_name {n : String} {ds : List Decl} {f : FuncDecl}
    (h : f ∈ keyOccs n ds) : nameOf f = n := by
  unfold keyOccs at h
  rw [List.mem_filterMap] at h
  obtain ⟨d, _, hd⟩ := h
  rcases d with f' | specs
  · have hd' : (if nameOf f' = n then some f' else none) = some f := hd
    by_cases hn : nameOf f' = n
    · rw [if_pos hn] at hd'
      injection hd' with hd'
      rw [← hd']
      exact hn
    · rw [if_neg hn] at hd'
      cases hd'
  · cases hd

theorem keyOccs_eq_nil_of_not_mem {n : String} :
    ∀ {ds : List Decl}, n ∉ funcNamesOf ds → keyOccs n ds = [] := by
  intro ds
  induction ds with
  | nil => intro _; rfl
  | cons d rest ih =>
    intro h
    have hrest : n ∉ funcNamesOf rest := by
      intro hm
      apply h
      rw [show (d :: rest) = [d] ++ rest from rfl, funcNamesOf, List.filterMap_append]
      exact List.mem_append_right _ hm
    rw [show (d :: rest) = [d] ++ rest from rfl, keyOccs_append, ih hrest, List.append_nil]
    rcases d with f | specs
    · rw [keyOccs_single_fd, if_neg]
      intro hn
      apply h
      rw [show (Decl.funcDecl f :: rest) = [Decl.funcDecl f] ++ rest from rfl,
        funcNamesOf, List.filterMap_append]
      refine List.mem_append_left _ ?_
      rw [show List.filterMap declFuncName [Decl.funcDecl f] = [nameOf f] from rfl,
        List.mem_singleton]
      exact hn.symm
    · exact keyOccs_single_gen n specs

theorem svOccs_append_none (n : String) (arr : List (Option Decl)) :
    svOccs n (arr ++ [none]) = svOccs n arr := by
  unfold svOccs
  rw [List.reduceOption_append,
    show ([none] : List (Option Decl)).reduceOption = [] from rfl, List.append_nil]

theorem svOccs_append_some (n : String) (arr : List (Option Decl)) (d : Decl) :
    svOccs n (arr ++ [some d]) = svOccs n arr ++ keyOccs n [d] := by
  unfold svOccs
  rw [List.reduceOption_append,
    show ([some d] : List (Option Decl)).reduceOption = [d] from rfl, keyOccs_append]

theorem svOccs_decomp (n : String) (A B : List (Option Decl)) (g : FuncDecl) :
    svOccs n (A ++ some (.funcDecl g) :: B) =
      svOccs n A ++ keyOccs n [Decl.funcDecl g] ++ svOccs n B := by
  unfold svOccs
  rw [List.reduceOption_append,
    show ((some (Decl.funcDecl g) :: B) : List (Option Decl)).reduceOption =
      Decl.funcDecl g :: B.reduceOption from rfl,
    show (Decl.funcDecl g :: B.reduceOption) = [Decl.funcDecl g] ++ B.reduceOption from rfl,
    keyOccs_append, keyOccs_append, List.append_assoc]

theorem svOccs_decomp_none (n : String) (A B : List (Option Decl)) :
    svOccs n (A ++ none :: B) = svOccs n A ++ svOccs n B := by
  unfold svOccs
  rw [List.reduceOption_append,
    show ((none :: B) : List (Option Decl)).reduceOption = B.reduceOption from rfl,
    keyOccs_append]

theorem survivorSpec_cons_of_doc {g : FuncDecl} (h : g.doc ≠ none) :
    ∀ t : List FuncDecl, survivorSpec (g :: t) = some g := by
  intro t
  cases t with
  | nil => rfl
  | cons r0 t' =>
    show (if g.doc = none then some r0 else some g) = some g
    rw [if_neg h]

theorem survivorSpec_stable (g r0 : FuncDecl) (t : List FuncDecl) (f : FuncDecl) :
    survivorSpec (g :: r0 :: (t ++ [f])) = survivorSpec (g :: r0 :: t) := rfl

theorem append_cons_eq_singleton {α : Type} {X Y : List α} {g g0 : α}
    (h : X ++ g :: Y = [g0]) : X = [] ∧ g = g0 ∧ Y = [] := by
  cases X with
  | nil =>
    rw [List.nil_append] at h
    injection h with h1 h2
    exact ⟨rfl, h1, h2⟩
  | cons x X' =>
    rw [List.cons_append] at h
    injection h with h1 h2
    exact absurd h2 (by simp)

theorem filterMap_single {α β : Type} (F : α → Option β) (d : α) :
    List.filterMap F [d] = (F d).toList := by
  rcases h : F d with _ | x <;> simp [List.filterMap_cons, h]

theorem funcNamesOf_append_single (processed : List Decl) (d : Decl) :
    funcNamesOf (processed ++ [d]) = funcNamesOf processed ++ (declFuncName d).toList := by
  unfold funcNamesOf
  rw [List.filterMap_append, filterMap_single]

/-- The survivor-tracking invariant of the filtering loop: on top of
`MergeInv`, the recorded slot of every key holds that key's first
occurrence (with at most one further occurrence only when the first
is documented), or is cleared exactly when an undocumented first
occurrence met a duplicate; and per key the surviving declarations
are exactly the one `survivorSpec` picks from the processed
occurrences. -/
structure MergeInv2 (s : MergeState) (processed : List Decl) : Prop where
  base : MergeInv s (funcNamesOf processed)
  occ_state : ∀ n j, lookupIdx s.idx n = some j →
    (∃ g rest, s.arr[j]? = some (some (.funcDecl g)) ∧
        keyOccs n processed = g :: rest ∧ (rest = [] ∨ g.doc ≠ none)) ∨
    (∃ g rest, s.arr[j]? = some none ∧
        keyOccs n processed = g :: rest ∧ g.doc = none ∧ rest ≠ [])
  sv_val : ∀ n, svOccs n s.arr = (survivorSpec (keyOccs n processed)).toList

theorem mergeInv2_step {s : MergeState} {processed : List Decl}
    (h : MergeInv2 s processed) (d : Decl) :
    MergeInv2 (mergeDeclStep s d) (processed ++ [d]) := by
  obtain ⟨hbase, hocc, hsv⟩ := h
  have hbase' : MergeInv (mergeDeclStep s d) (funcNamesOf (processed ++ [d])) := by
    rw [funcNamesOf_append_single]
    exact mergeInv_step hbase d
  cases d with
  | genDecl specs =>
    have hstep : mergeDeclStep s (.genDecl specs) =
        ⟨s.arr ++ [some (.genDecl specs)], s.idx⟩ := rfl
    have hkey : ∀ n, keyOccs n (processed ++ [Decl.genDecl specs]) = keyOccs n processed := by
      intro n
      rw [keyOccs_append, keyOccs_single_gen, List.append_nil]
    refine ⟨hbase', ?_, ?_⟩ <;> rw [hstep]
    · intro n j hl
      rw [hkey]
      rcases hocc n j hl with ⟨g, rest, hslot, hoccs, hcond⟩ |
        ⟨g, rest, hslot, hoccs, hdoc, hne⟩
      · exact Or.inl ⟨g, rest, getElem?_append_left_of_some hslot _, hoccs, hcond⟩
      · exact Or.inr ⟨g, rest, getElem?_append_left_of_some hslot _, hoccs, hdoc, hne⟩
    · intro n
      rw [svOccs_append_some, keyOccs_single_gen, List.append_nil, hkey]
      exact hsv n
  | funcDecl f =>
    have hkeyf : ∀ n', keyOccs n' (processed ++ [Decl.funcDecl f]) =
        keyOccs n' processed ++ (if nameOf f = n' then [f] else []) := by
      intro n'
      rw [keyOccs_append, keyOccs_single_fd]
    have hkeyne : ∀ n', n' ≠ nameOf f →
        keyOccs n' (processed ++ [Decl.funcDecl f]) = keyOccs n' processed := by
      intro n' hn'
      rw [hkeyf, if_neg (fun hh => hn' hh.symm), List.append_nil]
    rcases hli : lookupIdx s.idx (nameOf f) with _ | j
    · -- first occurrence of the key
      have hstep : mergeDeclStep s (.funcDecl f) =
          ⟨s.arr ++ [some (.funcDecl f)], s.idx ++ [(nameOf f, s.arr.length)]⟩ := by
        simp only [mergeDeclStep, hli]
      have hnotseen : nameOf f ∉ funcNamesOf processed := by
        intro hin
        have hs := (hbase.seen_iff _).mp hin
        rw [hli] at hs
        simp at hs
      have hoccnil : keyOccs (nameOf f) processed = [] := keyOccs_eq_nil_of_not_mem hnotseen
      refine ⟨hbase', ?_, ?_⟩ <;> rw [hstep]
      · intro n' j' hl'
        by_cases hn' : n' = nameOf f
        · subst hn'
          rw [lookupIdx_append_self _ hli] at hl'
          injection hl' with hj'
          subst hj'
          left
          refine ⟨f, [], getElem?_append_cons s.arr _ [], ?_, Or.inl rfl⟩
          rw [hkeyf, if_pos rfl, hoccnil]
          rfl
        · rw [lookupIdx_append_other _ hn'] at hl'
          rw [hkeyne n' hn']
          rcases hocc n' j' hl' with ⟨g, rest, hslot, hoccs, hcond⟩ |
            ⟨g, rest, hslot, hoccs, hdoc, hne⟩
          · exact Or.inl ⟨g, rest, getElem?_append_left_of_some hslot _, hoccs, hcond⟩
          · exact Or.inr ⟨g, rest, getElem?_append_left_of_some hslot _, hoccs, hdoc, hne⟩
      · intro n'
        rw [svOccs_append_some, keyOccs_single_fd]
        by_cases hn' : nameOf f = n'
        · subst hn'
          rw [if_pos rfl, hkeyf, if_pos rfl, hoccnil, hsv (nameOf f), hoccnil]
          rfl
        · rw [if_neg hn', List.append_nil, hkeyne n' (fun hh => hn' hh.symm)]
          exact hsv n'
    · -- the key was seen before
      rcases hocc _ j hli with ⟨g, rest, hslot, hoccs, hcond⟩ |
        ⟨g, rest, hslot, hoccs, hdocn, hne⟩
      · -- recorded slot still holds the first occurrence g
        have hgname : nameOf g = nameOf f :=
          mem_keyOccs_name (by rw [hoccs]; exact List.mem_cons_self _ _)
        by_cases hdoc : g.doc = none
        · -- replacement: g is undocumented, so it is the only occurrence so far
          have hrest : rest = [] := by
            rcases hcond with hr | hr
            · exact hr
            · exact absurd hdoc hr
          subst hrest
          have hstep : mergeDeclStep s (.funcDecl f) =
              ⟨(s.arr.set j none) ++ [some (.funcDecl f)], s.idx⟩ := by
            simp only [mergeDeclStep, hli, hslot]
            rw [if_pos hdoc]
          obtain ⟨A, B, hAB, hlen, hset⟩ := getElem?_decomp s.arr j (some (.funcDecl g)) hslot
          have hsvg : svOccs (nameOf f) s.arr = [g] := by
            rw [hsv (nameOf f), hoccs]
            rfl
          have hdecomp : svOccs (nameOf f) s.arr =
              svOccs (nameOf f) A ++ [g] ++ svOccs (nameOf f) B := by
            rw [hAB, svOccs_decomp, keyOccs_single_fd, if_pos hgname]
          have hAB0 : svOccs (nameOf f) A = [] ∧ svOccs (nameOf f) B = [] := by
            rw [hdecomp] at hsvg
            rw [List.append_assoc, List.singleton_append] at hsvg
            obtain ⟨h1, _, h3⟩ := append_cons_eq_singleton hsvg
            exact ⟨h1, h3⟩
          refine ⟨hbase', ?_, ?_⟩ <;> rw [hstep]
          · intro n' j' hl'
            by_cases hn' : n' = nameOf f
            · subst hn'
              rw [hli] at hl'
              injection hl' with hj'
              subst hj'
              right
              refine ⟨g, [f], ?_, ?_, hdoc, by simp⟩
              · have hsets : (s.arr.set j none)[j]? = some none := by
                  rw [hset none, ← hlen]
                  exact getElem?_append_cons A none B
                exact getElem?_append_left_of_some hsets _
              · rw [hkeyf, if_pos rfl, hoccs]
                rfl
            · rw [hkeyne n' hn']
              rcases hocc n' j' hl' with ⟨g', rest', hslot', hoccs', hcond'⟩ |
                ⟨g', rest', hslot', hoccs', hdoc', hne'⟩
              · have hjne : j' ≠ j := by
                  intro hj
                  subst hj
                  have heq := hslot.symm.trans hslot'
                  injection heq with heq
                  injection heq with heq
                  injection heq with heq
                  have : nameOf g' = n' :=
                    mem_keyOccs_name (by rw [hoccs']; exact List.mem_cons_self _ _)
                  rw [← heq] at this
                  exact hn' (this.symm.trans hgname)
                have hpres : ((s.arr.set j none))[j']? = some (some (.funcDecl g')) := by
                  rw [List.getElem?_set_ne (fun hh : j = j' => hjne hh.symm)]
                  exact hslot'
                exact Or.inl ⟨g', rest', getElem?_append_left_of_some hpres _, hoccs', hcond'⟩
              · have hjne : j' ≠ j := by
                  intro hj
                  subst hj
                  have heq := hslot.symm.trans hslot'
                  injection heq with heq
                  cases heq
                have hpres : ((s.arr.set j none))[j']? = some none := by
                  rw [List.getElem?_set_ne (fun hh : j = j' => hjne hh.symm)]
                  exact hslot'
                exact Or.inr ⟨g', rest', getElem?_append_left_of_some hpres _, hoccs', hdoc', hne'⟩
          · intro n'
            rw [show s.arr.set j none = A ++ none :: B from hset none]
            by_cases hn' : nameOf f = n'
            · subst hn'
              rw [svOccs_append_some, svOccs_decomp_none, hAB0.1, hAB0.2,
                keyOccs_single_fd, if_pos rfl, hkeyf, if_pos rfl, hoccs]
              show [f] = (survivorSpec (g :: [f])).toList
              show [f] = (if g.doc = none then some f else some g).toList
              rw [if_pos hdoc]
              rfl
            · rw [svOccs_append_some, svOccs_decomp_none, keyOccs_single_fd,
                if_neg hn', List.append_nil, hkeyne n' (fun hh => hn' hh.symm)]
              have horig : svOccs n' s.arr = svOccs n' A ++ svOccs n' B := by
                rw [hAB, svOccs_decomp, keyOccs_single_fd,
                  if_neg (fun hh : nameOf g = n' => hn' (hgname ▸ hh)), List.append_nil]
              rw [← horig]
              exact hsv n'
        · -- the recorded declaration is documented: drop the duplicate
          have hstep : mergeDeclStep s (.funcDecl f) = ⟨s.arr ++ [none], s.idx⟩ := by
            simp only [mergeDeclStep, hli, hslot]
            rw [if_neg hdoc]
          refine ⟨hbase', ?_, ?_⟩ <;> rw [hstep]
          · intro n' j' hl'
            by_cases hn' : n' = nameOf f
            · subst hn'
              rw [hli] at hl'
              injection hl' with hj'
              subst hj'
              left
              refine ⟨g, rest ++ [f], getElem?_append_left_of_some hslot _, ?_, Or.inr hdoc⟩
              rw [hkeyf, if_pos rfl, hoccs, List.cons_append]
            · rw [hkeyne n' hn']
              rcases hocc n' j' hl' with ⟨g', rest', hslot', hoccs', hcond'⟩ |
                ⟨g', rest', hslot', hoccs', hdoc', hne'⟩
              · exact Or.inl ⟨g', rest', getElem?_append_left_of_some hslot' _, hoccs', hcond'⟩
              · exact Or.inr ⟨g', rest', getElem?_append_left_of_some hslot' _, hoccs', hdoc', hne'⟩
          · intro n'
            rw [svOccs_append_none]
            by_cases hn' : nameOf f = n'
            · subst hn'
              rw [hkeyf, if_pos rfl, hoccs, List.cons_append, hsv (nameOf f), hoccs,
                survivorSpec_cons_of_doc hdoc, survivorSpec_cons_of_doc hdoc]
            · rw [hkeyne n' (fun hh => hn' hh.symm)]
              exact hsv n'
      · -- recorded slot was cleared earlier: the duplicate is dropped
        have hstep : mergeDeclStep s (.funcDecl f) = ⟨s.arr ++ [none], s.idx⟩ := by
          simp only [mergeDeclStep, hli, hslot]
        refine ⟨hbase', ?_, ?_⟩ <;> rw [hstep]
        · intro n' j' hl'
          by_cases hn' : n' = nameOf f
          · subst hn'
            rw [hli] at hl'
            injection hl' with hj'
            subst hj'
            right
            refine ⟨g, rest ++ [f], getElem?_append_left_of_some hslot _, ?_, hdocn, by simp⟩
            rw [hkeyf, if_pos rfl, hoccs, List.cons_append]
          · rw [hkeyne n' hn']
            rcases hocc n' j' hl' with ⟨g', rest', hslot', hoccs', hcond'⟩ |
              ⟨g', rest', hslot', hoccs', hdoc', hne'⟩
            · exact Or.inl ⟨g', rest', getElem?_append_left_of_some hslot' _, hoccs', hcond'⟩
            · exact Or.inr ⟨g', rest', getElem?_append_left_of_some hslot' _, hoccs', hdoc', hne'⟩
        · intro n'
          rw [svOccs_append_none]
          by_cases hn' : nameOf f = n'
          · subst hn'
            rw [hkeyf, if_pos rfl, hoccs, List.cons_append, hsv (nameOf f), hoccs]
            rcases rest with _ | ⟨r0, rest'⟩
            · exact absurd rfl hne
            · rw [show (r0 :: rest') ++ [f] = r0 :: (rest' ++ [f]) from List.cons_append r0 rest' [f],
                survivorSpec_stable]
          · rw [hkeyne n' (fun hh => hn' hh.symm)]
            exact hsv n'

theorem mergeInv2_init : MergeInv2 ⟨[], []⟩ [] := by
  refine ⟨mergeInv_init, ?_, ?_⟩
  · intro n j hl
    cases hl
  · intro n
    rfl

theorem mergeInv2_foldl :
    ∀ (ds : List Decl) (s : MergeState) (processed : List Decl),
      MergeInv2 s processed → MergeInv2 (ds.foldl mergeDeclStep s) (processed ++ ds) := by
  intro ds
  induction ds with
  | nil =>
    intro s processed h
    simpa using h
  | cons d rest ih =>
    intro s processed h
    rw [List.foldl_cons]
    have h2 := ih _ _ (mergeInv2_step h d)
    rw [show (processed ++ [d]) ++ rest = processed ++ d :: rest from by simp] at h2
    exact h2

/-- The exact survivor policy of the declaration filtering: per filter
key, the surviving declarations are exactly the one `survivorSpec`
picks from the key's occurrence list. -/
theorem dedupFuncDecls_survivor (ds : List Decl) (n : String) :
    keyOccs n (dedupFuncDecls ds) = (survivorSpec (keyOccs n ds)).toList := by
  have h := mergeInv2_foldl ds ⟨[], []⟩ [] mergeInv2_init
  rw [List.nil_append] at h
  exact h.sv_val n

/-- The last dot-separated segment of a filter key (the plain function
name of a receiver-qualified key). -/
def lastSeg (n : String) : String :=
  ⟨(n.data.reverse.takeWhile (fun c => ¬ c = '.')).reverse⟩

/-- Whether the two `if` statements of the `ParseFileFuncs` callback
call the extractor for a function declaration (with the option already
normalized). -/
def hitPred (funcOption : FuncOption) (f : FuncDecl) : Bool :=
  (decide (funcOption &&& FuncUnexported ≠ 0) && !(astIsExported f.name)) ||
  (decide (funcOption &&& FuncExported ≠ 0) && astIsExported f.name)

/-- `hitPred` expressed on the filter key alone: for a declaration
whose plain name is dot-free, the plain name is the key's last
segment. -/
def hitName (funcOption : FuncOption) (n : String) : Bool :=
  (decide (funcOption &&& FuncUnexported ≠ 0) && !(astIsExported (lastSeg n))) ||
  (decide (funcOption &&& FuncExported ≠ 0) && astIsExported (lastSeg n))

/-- The filter key of a declaration when the callback calls the
extractor for it. -/
def declHitName (funcOption : FuncOption) : Decl → Option String
  | .funcDecl f => if hitPred funcOption f then some (nameOf f) else none
  | _ => none

/-- The option normalization at the top of `ParseFileFuncs`. -/
def normOpt (funcOption : FuncOption) : FuncOption :=
  if funcOption &&& FuncUnexported = 0 ∧ funcOption &&& FuncExported = 0 then FuncBoth
  else funcOption

theorem parseFuncDeclStep_fst (funcOption : FuncOption) (f : FuncDecl) :
    (parseFuncDeclStep funcOption f).1 =
      if hitPred funcOption f then (ParseFunction f).1 else none := by
  unfold parseFuncDeclStep hitPred
  by_cases hu : funcOption &&& FuncUnexported = 0 <;>
    by_cases hx : funcOption &&& FuncExported = 0 <;>
      by_cases he : astIsExported f.name <;>
        simp [hu, hx, he]

theorem parseDeclsFuncs_length (funcOption : FuncOption) (ds : List Decl) :
    (parseDeclsFuncs funcOption ds).1.length =
      (ds.filterMap (declHitName funcOption)).length := by
  induction ds with
  | nil => rfl
  | cons d rest ih =>
    cases d with
    | genDecl specs =>
      simp only [parseDeclsFuncs, List.filterMap_cons, declHitName]
      exact ih
    | funcDecl f =>
      simp only [parseDeclsFuncs, List.filterMap_cons, declHitName]
      rw [parseFuncDeclStep_fst]
      by_cases hh : hitPred funcOption f
      · rw [if_pos hh, if_pos hh]
        simp only [ParseFunction, List.length_cons]
        rw [ih]
      · rw [if_neg hh, if_neg hh]
        exact ih

theorem takeWhile_all {p : Char → Bool} :
    ∀ (l : List Char), (∀ a ∈ l, p a = true) → l.takeWhile p = l := by
  intro l
  induction l with
  | nil => intro _; rfl
  | cons a t ih =>
    intro h
    have ha := h a (List.mem_cons_self _ _)
    simp only [List.takeWhile_cons, ha, if_true]
    rw [ih (fun x hx => h x (List.mem_cons_of_mem _ hx))]

theorem takeWhile_all_append {p : Char → Bool} :
    ∀ (A B : List Char), (∀ a ∈ A, p a = true) →
      (A ++ B).takeWhile p = A ++ B.takeWhile p := by
  intro A
  induction A with
  | nil => intro B _; rfl
  | cons a t ih =>
    intro B h
    have ha := h a (List.mem_cons_self _ _)
    simp only [List.cons_append, List.takeWhile_cons, ha, if_true]
    rw [ih B (fun x hx => h x (List.mem_cons_of_mem _ hx))]

theorem lastSeg_dotfree {m : String} (h : ('.' : Char) ∉ m.data) : lastSeg m = m := by
  unfold lastSeg
  have hall : ∀ a ∈ m.data.reverse, (fun c : Char => decide (¬ c = '.')) a = true := by
    intro a ha
    rw [List.mem_reverse] at ha
    simp only [decide_eq_true_eq]
    intro hc
    exact h (hc ▸ ha)
  rw [takeWhile_all _ hall, List.reverse_reverse]

theorem lastSeg_qualified {m : String} (r : String) (h : ('.' : Char) ∉ m.data) :
    lastSeg (r ++ "." ++ m) = m := by
  unfold lastSeg
  have hdata : (r ++ "." ++ m).data = r.data ++ '.' :: m.data := by
    rw [String.data_append, String.data_append]
    rw [show ("." : String).data = ['.'] from rfl]
    rw [List.append_assoc]
    rfl
  have hall : ∀ a ∈ m.data.reverse, (fun c : Char => decide (¬ c = '.')) a = true := by
    intro a ha
    rw [List.mem_reverse] at ha
    simp only [decide_eq_true_eq]
    intro hc
    exact h (hc ▸ ha)
  rw [hdata, List.reverse_append, List.reverse_cons, List.append_assoc,
    takeWhile_all_append _ _ hall]
  have hstop : (['.'] ++ r.data.reverse).takeWhile (fun c : Char => decide (¬ c = '.')) = [] := by
    simp [List.takeWhile_cons]
  rw [hstop, List.append_nil, List.reverse_reverse]

theorem hitPred_eq_hitName {funcOption : FuncOption} {f : FuncDecl}
    (h : ('.' : Char) ∉ f.name.data) :
    hitPred funcOption f = hitName funcOption (nameOf f) := by
  unfold hitPred hitName nameOf
  cases hr : f.recv with
  | none => rw [lastSeg_dotfree h]
  | some r => rw [lastSeg_qualified r h]

theorem declHitName_eq_filter (funcOption : FuncOption) :
    ∀ (ds : List Decl), (∀ f, (Decl.funcDecl f) ∈ ds → ('.' : Char) ∉ f.name.data) →
      ds.filterMap (declHitName funcOption) =
        (funcNamesOf ds).filter (hitName funcOption) := by
  intro ds
  induction ds with
  | nil => intro _; rfl
  | cons d rest ih =>
    intro hdot
    have ihr := ih (fun f hf => hdot f (List.mem_cons_of_mem _ hf))
    cases d with
    | genDecl specs =>
      simp only [List.filterMap_cons, declHitName]
      rw [show funcNamesOf (Decl.genDecl specs :: rest) = funcNamesOf rest from rfl]
      exact ihr
    | funcDecl f =>
      have hdf := hdot f (List.mem_cons_self _ _)
      rw [show funcNamesOf (Decl.funcDecl f :: rest) = nameOf f :: funcNamesOf rest from rfl]
      rw [List.filterMap_cons, List.filter_cons]
      simp only [declHitName]
      rw [hitPred_eq_hitName hdf]
      by_cases hh : hitName funcOption (nameOf f) = true
      · rw [if_pos hh, hh, if_pos rfl, ihr]
      · rw [if_neg hh]
        have hh' : hitName funcOption (nameOf f) = false := by
          cases hb : hitName funcOption (nameOf f)
          · rfl
          · exact absurd hb hh
        rw [hh']
        simp only [if_neg]
        rw [ihr]
        simp

theorem foldl_importStep_inv :
    ∀ (imps : List ImportSpec) (acc : List ImportSpec × List String),
      (acc.1.map (fun i => i.pathValue)).Nodup →
      (∀ v, v ∈ acc.1.map (fun i => i.pathValue) ↔ v ∈ acc.2) →
      ((imps.foldl importStep acc).1.map (fun i => i.pathValue)).Nodup ∧
      ∀ v, v ∈ (imps.foldl importStep acc).1.map (fun i => i.pathValue) ↔
             (v ∈ acc.1.map (fun i => i.pathValue) ∨ v ∈ imps.map (fun i => i.pathValue)) := by
  intro imps
  induction imps with
  | nil =>
    intro acc h1 _
    exact ⟨h1, fun v => by simp⟩
  | cons imp rest ih =>
    intro acc h1 h2
    rw [List.foldl_cons]
    by_cases hmem : imp.pathValue ∈ acc.2
    · have hstep : importStep acc imp = acc := by
        simp [importStep, hmem]
      rw [hstep]
      obtain ⟨ha, hb⟩ := ih acc h1 h2
      refine ⟨ha, fun v => ?_⟩
      rw [hb v, List.map_cons, List.mem_cons]
      constructor
      · rintro (h | h)
        · exact Or.inl h
        · exact Or.inr (Or.inr h)
      · rintro (h | h | h)
        · exact Or.inl h
        · rw [h]
          exact Or.inl ((h2 _).mpr hmem)
        · exact Or.inr h
    · have hstep : importStep acc imp = (acc.1 ++ [imp], acc.2 ++ [imp.pathValue]) := by
        simp [importStep, hmem]
      rw [hstep]
      have h1' : (((acc.1 ++ [imp], acc.2 ++ [imp.pathValue]).1).map
          (fun i => i.pathValue)).Nodup := by
        rw [List.map_append, List.nodup_append]
        refine ⟨h1, by simp, ?_⟩
        intro a ha hb
        simp only [List.map_cons, List.map_nil, List.mem_singleton] at hb
        subst hb
        exact hmem ((h2 _).mp ha)
      have h2' : ∀ v, v ∈ ((acc.1 ++ [imp], acc.2 ++ [imp.pathValue]).1).map
          (fun i => i.pathValue) ↔ v ∈ (acc.1 ++ [imp], acc.2 ++ [imp.pathValue]).2 := by
        intro v
        rw [List.map_append, List.mem_append, List.mem_append]
        simp only [List.map_cons, List.map_nil, List.mem_singleton]
        rw [h2 v]
      obtain ⟨ha, hb⟩ := ih _ h1' h2'
      refine ⟨ha, fun v => ?_⟩
      rw [hb v]
      simp only [List.map_append, List.mem_append, List.map_cons, List.map_nil,
        List.mem_singleton, List.mem_cons]
      tauto

/-- The imports kept by `MergePackageFiles`: duplicate-free path
values with the same membership as the input paths. -/
theorem dedupImports_paths (imps : List ImportSpec) :
    ((dedupImports imps).map (fun i => i.pathValue)).Nodup ∧
    ∀ v, v ∈ (dedupImports imps).map (fun i => i.pathValue) ↔
           v ∈ imps.map (fun i => i.pathValue) := by
  obtain ⟨ha, hb⟩ := foldl_importStep_inv imps ([], [])
    (by simp) (fun v => by simp)
  refine ⟨ha, fun v => ?_⟩
  unfold dedupImports
  rw [hb v]
  simp

theorem filterMap_lookup_eq_map_snd :
    ∀ (files : List (String × File)),
      (files.map (fun pr => pr.1)).Nodup →
      (files.map (fun pr => pr.1)).filterMap (lookupFile files) =
        files.map (fun pr => pr.2) := by
  intro files
  induction files with
  | nil => intro _; rfl
  | cons pr rest ih =>
    intro h
    rw [List.map_cons, List.nodup_cons] at h
    rw [List.map_cons, List.filterMap_cons]
    have h1 : lookupFile (pr :: rest) pr.1 = some pr.2 := by
      unfold lookupFile
      rw [List.find?_cons_of_pos _ (by simp)]
      rfl
    simp only [h1, List.map_cons]
    congr 1
    have hcong : ∀ n ∈ rest.map (fun pr2 => pr2.1),
        lookupFile (pr :: rest) n = lookupFile rest n := by
      intro n hn
      unfold lookupFile
      rw [List.find?_cons_of_neg]
      simp only [decide_eq_true_eq]
      intro hh
      exact h.1 (hh ▸ hn)
    rw [List.filterMap_congr hcong]
    exact ih h.2

/-- The file list `MergePackageFiles` iterates over. -/
def fileListOf (pkg : AstPackage) : List File :=
  (sortStrings (pkg.files.map (fun pr => pr.1))).filterMap (lookupFile pkg.files)

/-- The concatenated declarations `MergePackageFiles` filters. -/
def allDeclsOf (pkg : AstPackage) : List Decl :=
  ((fileListOf pkg).map (fun f => f.decls)).flatten

/-- The concatenated imports `MergePackageFiles` deduplicates. -/
def allImportsOf (pkg : AstPackage) : List ImportSpec :=
  ((fileListOf pkg).map (fun f => f.imports)).flatten

theorem parsePackage_funcs_eq (pkg : AstPackage) (funcOption : FuncOption) :
    (ParsePackage pkg funcOption).Funcs =
      (parseDeclsFuncs (normOpt funcOption) (dedupFuncDecls (allDeclsOf pkg))).1 := rfl

theorem parsePackage_imports_eq (pkg : AstPackage) (funcOption : FuncOption) :
    (ParsePackage pkg funcOption).Imports =
      (dedupImports (allImportsOf pkg)).map (fun i => goTrimChar i.pathValue '"') := rfl

theorem filter_length_card {l : List String} (h : l.Nodup) (p : String → Bool) :
    (l.filter p).length = (l.toFinset.filter (fun n => p n = true)).card := by
  rw [← List.toFinset_filter]
  exact (List.toFinset_card_of_nodup (h.filter p)).symm

theorem toFinset_eq_of_mem_iff {l₁ l₂ : List String} (h : ∀ n, n ∈ l₁ ↔ n ∈ l₂) :
    l₁.toFinset = l₂.toFinset := by
  ext n
  rw [List.mem_toFinset, List.mem_toFinset, h n]

theorem parsePackage_funcs_length (pkg : AstPackage) (funcOption : FuncOption)
    (hdot : ∀ f, (Decl.funcDecl f) ∈ allDeclsOf pkg → ('.' : Char) ∉ f.name.data) :
    (ParsePackage pkg funcOption).Funcs.length =
      ((funcNamesOf (allDeclsOf pkg)).toFinset.filter
        (fun n => hitName (normOpt funcOption) n = true)).card := by
  rw [parsePackage_funcs_eq, parseDeclsFuncs_length]
  have hdot' : ∀ f, (Decl.funcDecl f) ∈ dedupFuncDecls (allDeclsOf pkg) →
      ('.' : Char) ∉ f.name.data :=
    fun f hf => hdot f (dedupFuncDecls_mem _ _ hf)
  rw [declHitName_eq_filter _ _ hdot']
  obtain ⟨hnd, hmm⟩ := dedupFuncDecls_names (allDeclsOf pkg)
  rw [filter_length_card hnd, toFinset_eq_of_mem_iff hmm]

theorem parsePackage_imports_length (pkg : AstPackage) (funcOption : FuncOption) :
    (ParsePackage pkg funcOption).Imports.length =
      ((allImportsOf pkg).map (fun i => i.pathValue)).toFinset.card := by
  rw [parsePackage_imports_eq, List.length_map]
  obtain ⟨hnd, hmm⟩ := dedupImports_paths (allImportsOf pkg)
  rw [show (dedupImports (allImportsOf pkg)).length =
      ((dedupImports (allImportsOf pkg)).map (fun i => i.pathValue)).length from
    (List.length_map _ _).symm]
  rw [← List.toFinset_card_of_nodup hnd, toFinset_eq_of_mem_iff hmm]

theorem fileListOf_mem {pkg : AstPackage} {fl : File} (h : fl ∈ fileListOf pkg) :
    ∃ pr ∈ pkg.files, pr.2 = fl := by
  unfold fileListOf at h
  rw [List.mem_filterMap] at h
  obtain ⟨fn, _, hlk⟩ := h
  unfold lookupFile at hlk
  rcases hf : pkg.files.find? (fun p => p.1 = fn) with _ | pr
  · rw [hf] at hlk
    cases hlk
  · rw [hf] at hlk
    injection hlk with hlk
    exact ⟨pr, List.mem_of_find?_eq_some hf, hlk⟩

theorem allDeclsOf_mem {pkg : AstPackage} {d : Decl} (h : d ∈ allDeclsOf pkg) :
    ∃ pr ∈ pkg.files, d ∈ pr.2.decls := by
  unfold allDeclsOf at h
  rw [List.mem_flatten] at h
  obtain ⟨ds, hds, hd⟩ := h
  rw [List.mem_map] at hds
  obtain ⟨fl, hfl, rfl⟩ := hds
  obtain ⟨pr, hpr, hsnd⟩ := fileListOf_mem hfl
  exact ⟨pr, hpr, by rw [hsnd]; exact hd⟩

theorem fileListOf_perm (pkg : AstPackage)
    (h : (pkg.files.map (fun pr => pr.1)).Nodup) :
    (fileListOf pkg).Perm (pkg.files.map (fun pr => pr.2)) := by
  unfold fileListOf
  have hperm : (sortStrings (pkg.files.map (fun pr => pr.1))).Perm
      (pkg.files.map (fun pr => pr.1)) := List.perm_insertionSort _ _
  have h2 := hperm.filterMap (lookupFile pkg.files)
  rw [filterMap_lookup_eq_map_snd pkg.files h] at h2
  exact h2

theorem mem_flatten_proj_double {α : Type} (proj : File → List α)
    {fs : List (String × File)} {ren : String → String} {nm : String}
    (hn1 : (fs.map (fun pr => pr.1)).Nodup)
    (hn2 : ((fs ++ fs.map (fun pr => (ren pr.1, pr.2))).map (fun pr => pr.1)).Nodup) :
    ∀ a : α,
      a ∈ ((fileListOf
          { name := nm, files := fs ++ fs.map (fun pr => (ren pr.1, pr.2)) }).map proj).flatten ↔
      a ∈ ((fileListOf { name := nm, files := fs }).map proj).flatten := by
  intro a
  have hsnd : ((fs ++ fs.map (fun pr => (ren pr.1, pr.2))).map (fun pr => pr.2)) =
      fs.map (fun pr => pr.2) ++ fs.map (fun pr => pr.2) := by
    rw [List.map_append, List.map_map]
    rfl
  have hp2 := fileListOf_perm
    { name := nm, files := fs ++ fs.map (fun pr => (ren pr.1, pr.2)) } hn2
  have hp1 := fileListOf_perm { name := nm, files := fs } hn1
  rw [show ({ name := nm, files := fs ++ fs.map (fun pr => (ren pr.1, pr.2)) } :
      AstPackage).files = fs ++ fs.map (fun pr => (ren pr.1, pr.2)) from rfl, hsnd] at hp2
  rw [show ({ name := nm, files := fs } : AstPackage).files = fs from rfl] at hp1
  rw [((hp2.map proj).flatten).mem_iff, ((hp1.map proj).flatten).mem_iff,
    List.map_append, List.flatten_append, List.mem_append, or_self]

/-- The C6 package with a duplicate function name: `a.go` declares `A`
without a doc comment, `b.go` declares `A` with doc comment `d`. -/
def dupFileA : File :=
  { pkgName := "p"
    decls := [.funcDecl { name := "A", recv := none, doc := none, docPos := 0, typePos := 1,
                          typeText := "func A() int", body := some "b" }]
    imports := [] }

def dupFileB : File :=
  { pkgName := "p"
    decls := [.funcDecl { name := "A", recv := none,
                          doc := some { raw := "// d\n", text := "d\n" },
                          docPos := 1, typePos := 6,
                          typeText := "func A() int", body := some "b" }]
    imports := [] }

def dupPkg : AstPackage := { name := "p", files := [("a.go", dupFileA), ("b.go", dupFileB)] }

/-- C6 (counterexample): duplicate function names do not always keep
the first occurrence.  Extracting `a.go` alone yields `A` with empty
documentation (the first occurrence), but merging the two files keeps
the second `A` — when the recorded first occurrence has no doc
comment, `MergePackageFiles` replaces it by the next duplicate
(documented here, which makes the replacement observable through the
kept `Function`'s `Documentation`). -/
theorem C6_counterexample :
    (ParsePackage { name := "p", files := [("a.go", dupFileA)] } FuncBoth).Funcs =
      [{ Name := "A", Signature := "func A() int", Documentation := "" }] ∧
    (ParsePackage dupPkg FuncBoth).Funcs =
      [{ Name := "A", Signature := "func A() int", Documentation := "d" }] ∧
    ({ Name := "A", Signature := "func A() int", Documentation := "d" } : Function) ≠
      { Name := "A", Signature := "func A() int", Documentation := "" } := by
  refine ⟨by decide, by decide, by decide⟩

/-- C6 (amended): within-directory merge deduplication is idempotent
in cardinality: for every file set `F` (with distinct filenames and
parser-well-formed, dot-free function names), merging `F` together
with an exact copy of itself under fresh filenames yields a `Package`
with the same `Funcs` cardinality and the same `Imports` cardinality
as merging `F` alone.  Exact duplicate import paths collapse to one
entry (the first): the kept import paths are duplicate-free with
unchanged membership.  Duplicate function filter keys keep exactly
one occurrence, fully characterised here by `survivorSpec`: the first
occurrence survives when it has a doc comment or no duplicate
follows; otherwise the second occurrence survives — whether or not
that second occurrence is documented, since the filter inspects only
the recorded declaration's doc — and every later duplicate is
dropped. -/
theorem C6_merge_idempotent :
    (∀ imps : List ImportSpec,
      ((dedupImports imps).map (fun i => i.pathValue)).Nodup ∧
      ∀ v, v ∈ (dedupImports imps).map (fun i => i.pathValue) ↔
             v ∈ imps.map (fun i => i.pathValue)) ∧
    (∀ (pkg : AstPackage) (n : String),
      keyOccs n (MergePackageFiles pkg).decls =
        (survivorSpec (keyOccs n (allDeclsOf pkg))).toList) ∧
    (∀ (nm : String) (fs : List (String × File)) (ren : String → String)
        (funcOption : FuncOption),
      ((fs.map (fun pr => pr.1)) ++ (fs.map (fun pr => pr.1)).map ren).Nodup →
      (∀ pr ∈ fs, ∀ f, (Decl.funcDecl f) ∈ pr.2.decls → ('.' : Char) ∉ f.name.data) →
      (ParsePackage { name := nm, files := fs ++ fs.map (fun pr => (ren pr.1, pr.2)) }
          funcOption).Funcs.length =
        (ParsePackage { name := nm, files := fs } funcOption).Funcs.length ∧
      (ParsePackage { name := nm, files := fs ++ fs.map (fun pr => (ren pr.1, pr.2)) }
          funcOption).Imports.length =
        (ParsePackage { name := nm, files := fs } funcOption).Imports.length) := by
  refine ⟨dedupImports_paths, fun pkg n => dedupFuncDecls_survivor (allDeclsOf pkg) n, ?_⟩
  intro nm fs ren funcOption hnames hdot
  have hn1 : (fs.map (fun pr => pr.1)).Nodup := (List.nodup_append.mp hnames).1
  have hn2 : ((fs ++ fs.map (fun pr => (ren pr.1, pr.2))).map (fun pr => pr.1)).Nodup := by
    rw [List.map_append, List.map_map]
    rw [List.map_map] at hnames
    exact hnames
  have hdot1 : ∀ f, (Decl.funcDecl f) ∈ allDeclsOf { name := nm, files := fs } →
      ('.' : Char) ∉ f.name.data := by
    intro f hf
    obtain ⟨pr, hpr, hd⟩ := allDeclsOf_mem hf
    exact hdot pr hpr f hd
  have hdot2 : ∀ f, (Decl.funcDecl f) ∈
      allDeclsOf { name := nm, files := fs ++ fs.map (fun pr => (ren pr.1, pr.2)) } →
      ('.' : Char) ∉ f.name.data := by
    intro f hf
    obtain ⟨pr, hpr, hd⟩ := allDeclsOf_mem hf
    rcases List.mem_append.mp hpr with h | h
    · exact hdot pr h f hd
    · rw [List.mem_map] at h
      obtain ⟨pr0, hpr0, rfl⟩ := h
      exact hdot pr0 hpr0 f hd
  constructor
  · rw [parsePackage_funcs_length _ _ hdot2, parsePackage_funcs_length _ _ hdot1]
    have hmem : ∀ n, n ∈ funcNamesOf
        (allDeclsOf { name := nm, files := fs ++ fs.map (fun pr => (ren pr.1, pr.2)) }) ↔
        n ∈ funcNamesOf (allDeclsOf { name := nm, files := fs }) := by
      intro n
      unfold funcNamesOf
      rw [List.mem_filterMap, List.mem_filterMap]
      constructor
      · rintro ⟨d, hd, hdn⟩
        exact ⟨d, (mem_flatten_proj_double (fun f => f.decls) hn1 hn2 d).mp hd, hdn⟩
      · rintro ⟨d, hd, hdn⟩
        exact ⟨d, (mem_flatten_proj_double (fun f => f.decls) hn1 hn2 d).mpr hd, hdn⟩
    rw [toFinset_eq_of_mem_iff hmem]
  · rw [parsePackage_imports_length, parsePackage_imports_length]
    have hmem : ∀ v, v ∈ (allImportsOf
        { name := nm, files := fs ++ fs.map (fun pr => (ren pr.1, pr.2)) }).map
          (fun i => i.pathValue) ↔
        v ∈ (allImportsOf { name := nm, files := fs }).map (fun i => i.pathValue) := by
      intro v
      rw [List.mem_map, List.mem_map]
      constructor
      · rintro ⟨i, hi, hiv⟩
        exact ⟨i, (mem_flatten_proj_double (fun f => f.imports) hn1 hn2 i).mp hi, hiv⟩
      · rintro ⟨i, hi, hiv⟩
        exact ⟨i, (mem_flatten_proj_double (fun f => f.imports) hn1 hn2 i).mpr hi, hiv⟩
    rw [toFinset_eq_of_mem_iff hmem]

/-- Witness for C6: a one-file set holding one function and one
import, doubled under fresh filenames, keeps cardinalities 1 and 1. -/
theorem C6_merge_idempotent_witness :
    (((([("a.go", utilFile1)].map (fun pr => pr.1)) ++
        ([("a.go", utilFile1)].map (fun pr => pr.1)).map (fun s => s ++ "2"))).Nodup ∧
      ∀ pr ∈ [("a.go", utilFile1)], ∀ f, (Decl.funcDecl f) ∈ pr.2.decls →
        ('.' : Char) ∉ f.name.data) ∧
    (ParsePackage { name := "util", files := [("a.go", utilFile1)] ++
        [("a.go", utilFile1)].map (fun pr => ((fun s => s ++ "2") pr.1, pr.2)) }
      FuncBoth).Funcs.length =
      (ParsePackage { name := "util", files := [("a.go", utilFile1)] } FuncBoth).Funcs.length := by
  have hnames : ((([("a.go", utilFile1)].map (fun pr => pr.1)) ++
      ([("a.go", utilFile1)].map (fun pr => pr.1)).map (fun s => s ++ "2"))).Nodup := by
    decide
  have hdot : ∀ pr ∈ [("a.go", utilFile1)], ∀ f, (Decl.funcDecl f) ∈ pr.2.decls →
      ('.' : Char) ∉ f.name.data := by
    intro pr hpr f hf
    rw [List.mem_singleton] at hpr
    subst hpr
    rw [show (("a.go", utilFile1) : String × File).2.decls =
        [Decl.funcDecl { name := "A", recv := none, doc := none, docPos := 0, typePos := 1,
                         typeText := "func A()", body := some "b" },
         Decl.genDecl [.typeSpec "I1" (.interfaceType [])]] from rfl] at hf
    rcases List.mem_cons.mp hf with h | h
    · injection h with h
      rw [h]
      decide
    · rcases List.mem_cons.mp h with h2 | h2
      · cases h2
      · cases h2
  exact ⟨⟨hnames, hdot⟩,
    (C6_merge_idempotent.2.2 "util" [("a.go", utilFile1)] (fun s => s ++ "2")
      FuncBoth hnames hdot).1⟩

end Inspect
